import Mathlib

/-!
Verification development for the nim-go-sdk agent runtime.

Shallow embedding of the parts of the code base that the checked claims
speak about: the JSON-schema builder (`tools/schema.go`), the mock
embedder (`memory/embedder/mock`), the chromem-backed vector store
(`memory/store/chromem/chromem.go`), the memory manager formatting
(`memory/manager.go`), the scheduled-payments store, tools and scheduler
(hackathon starter `main.go`), and the agent loop engine
(`engine/engine.go`: `Run`, `RunConfirmedAction`).

Go maps with string keys are modelled as association lists with
replace-or-append insertion; map identity (aliasing through pointers) is
modelled with an explicit heap of property maps where the claims depend
on it.  Go `float64`/`float32` arithmetic on decimal amounts is modelled
exactly over `ℚ` (and over `ℝ` where a square root occurs); machine
64-bit arithmetic is `Nat` arithmetic mod `2 ^ 64`.
-/

namespace NimSDK

/-- Replace-or-append insertion, the effect of a Go map assignment
`m[k] = v` observed through lookups. -/
def mapInsert {α : Type} (m : List (String × α)) (k : String) (v : α) :
    List (String × α) :=
  match m with
  | [] => [(k, v)]
  | (k0, v0) :: rest => if k0 = k then (k, v) :: rest else (k0, v0) :: mapInsert rest k v

/-- Go map read `m[k]` (as an `Option`; a missing key reads the zero value). -/
def mapLookup {α : Type} (m : List (String × α)) (k : String) : Option α :=
  match m with
  | [] => none
  | (k0, v0) :: rest => if k0 = k then some v0 else mapLookup rest k

/-! ### Schema builder — `tools/schema.go`

A schema value built by `ObjectSchema` is a Go `map[string]interface{}`
holding `"type"`, a pointer to a nested `"properties"` map, and
optionally a `"required"` `[]string`.  The nested properties map is
shared by reference, so it is modelled through an explicit heap of
property maps addressed by `Nat` references; the top-level map is a
record (its three keys are the only ones the source ever creates). -/

/-- A property value as produced by the `...Property` helpers.
`stringProp` is `StringProperty(description)`; other helper shapes are
collapsed into `otherProp` (their contents are never inspected). -/
inductive PropVal
  | stringProp (description : String)
  | otherProp (tag : String)
deriving DecidableEq

/-- A `map[string]interface{}` of JSON-schema properties. -/
abbrev PropMap := List (String × PropVal)

/-- Heap of property maps; a schema's `"properties"` entry is a reference
into this heap, which models Go's sharing of the nested map. -/
abbrev SchemaHeap := List PropMap

def heapGet (h : SchemaHeap) (r : Nat) : PropMap := h.getD r []

def heapSet (h : SchemaHeap) (r : Nat) (m : PropMap) : SchemaHeap := h.set r m

def heapAlloc (h : SchemaHeap) (m : PropMap) : SchemaHeap × Nat := (h ++ [m], h.length)

/-- The top-level schema map built by `ObjectSchema`/`WithThought`:
`"type"`, a reference to the shared `"properties"` map (`none` when the
key is absent), and the `"required"` `[]string` (`none` when absent). -/
structure Schema where
  typ : String
  propsRef : Option Nat
  required : Option (List String)
deriving DecidableEq

/-- `ObjectSchema(properties, required...)`: allocates the properties
map and stores `"required"` only when the variadic list is non-empty. -/
def ObjectSchema (h : SchemaHeap) (properties : PropMap) (required : List String) :
    SchemaHeap × Schema :=
  let (h1, r) := heapAlloc h properties
  (h1, { typ := "object", propsRef := some r,
         required := if required.length > 0 then some required else none })

/-- `StringProperty(description)`. -/
def StringProperty (description : String) : PropVal := .stringProp description

/-- The description text of the `thought` property added by `WithThought`. -/
def thoughtDescription : String :=
  "Your reasoning about why you're using this tool and what you expect to accomplish. " ++
  "For write operations, explain your decision-making process."

/-- `WithThought(schema, requireThought)`.  The top-level map is cloned
(`result[k] = v` for each entry), which copies the *reference* to the
nested properties map; `props["thought"] = StringProperty(...)` then
mutates the shared map in the heap.  When the `"properties"` key is
missing a fresh map is allocated and stored under the key.  When
`requireThought` is set, `"thought"` is appended to the (possibly
missing, then empty) `"required"` slice. -/
def WithThought (h : SchemaHeap) (schema : Schema) (requireThought : Bool) :
    SchemaHeap × Schema :=
  match schema.propsRef with
  | some r =>
      let props := heapGet h r
      let h1 := heapSet h r (mapInsert props "thought" (StringProperty thoughtDescription))
      let required :=
        if requireThought then some ((schema.required.getD []) ++ ["thought"])
        else schema.required
      (h1, { typ := schema.typ, propsRef := some r, required := required })
  | none =>
      let (h1, r) := heapAlloc h (mapInsert [] "thought" (StringProperty thoughtDescription))
      let required :=
        if requireThought then some ((schema.required.getD []) ++ ["thought"])
        else schema.required
      (h1, { typ := schema.typ, propsRef := some r, required := required })

/-- `BuildSchemaWithThought(properties, requireThought, required...)`. -/
def BuildSchemaWithThought (h : SchemaHeap) (properties : PropMap)
    (requireThought : Bool) (required : List String) : SchemaHeap × Schema :=
  let (h1, schema) := ObjectSchema h properties required
  WithThought h1 schema requireThought

/-! ### Mock embedder — `memory/embedder/mock`

`Embed` hashes the text's bytes with 64-bit FNV-1a, runs a 64-bit LCG to
produce 384 values in roughly `[-1, 1]`, and normalizes to a unit
vector.  The input is the UTF-8 byte sequence of the text; Go `uint64`
arithmetic is `Nat` mod `2 ^ 64`; the float arithmetic of the value
conversion and of `normalize` is modelled exactly over `ℚ` and `ℝ`. -/

/-- `2 ^ 64`, written out so that kernel evaluation stays literal. -/
def two64 : Nat := 18446744073709551616

def fnvOffsetBasis : Nat := 14695981039346656037

def fnvPrime : Nat := 1099511628211

/-- One step of FNV-1a on a byte: `h = (h XOR b) * prime` in `uint64`. -/
def fnv1aStep (h b : Nat) : Nat := ((h ^^^ b) * fnvPrime) % two64

/-- `fnv.New64a(); h.Write(bytes); h.Sum64()`. -/
def fnv1a (bytes : List Nat) : Nat := bytes.foldl fnv1aStep fnvOffsetBasis

/-- `seed = seed*6364136223846793005 + 1442695040888963407` in `uint64`. -/
def lcgNext (seed : Nat) : Nat :=
  (seed * 6364136223846793005 + 1442695040888963407) % two64

/-- Reinterpret a `uint64` bit pattern as `int64` (Go `int64(seed)`);
`9223372036854775808 = 2 ^ 63`. -/
def int64OfUInt64 (n : Nat) : Int :=
  if n < 9223372036854775808 then (n : Int) else (n : Int) - (two64 : Int)

/-- `float32(int64(seed)) / float32(math.MaxInt64)`, modelled exactly:
the signed value divided by `math.MaxInt64 = 2^63 - 1`. -/
def embedValue (seed : Nat) : ℚ :=
  (int64OfUInt64 seed : ℚ) / (9223372036854775807 : ℚ)

/-- The successive LCG states: `n` further seeds after `seed`. -/
def lcgSeeds : Nat → Nat → List Nat
  | 0, _ => []
  | n + 1, seed =>
      let s := lcgNext seed
      s :: lcgSeeds n s

/-- `m.dimensions` of the mock embedder (all-MiniLM-L6-v2 size). -/
def mockDimensions : Nat := 384

/-- The embedding before normalization: the loop body of `Embed`. -/
def mockEmbedPre (bytes : List Nat) : List ℚ :=
  (lcgSeeds mockDimensions (fnv1a bytes)).map embedValue

/-- `normalize(vec)`: sum of squares; zero vector returned unchanged,
otherwise each component is divided by the square root of the sum.
The square root forces this into `ℝ` (the branch test stays in `ℚ` and
is decidable, exactly as the exact-arithmetic reading of `norm == 0`). -/
noncomputable def normalize (vec : List ℚ) : List ℝ :=
  let norm : ℚ := (vec.map fun v => v * v).sum
  if norm = 0 then vec.map fun q : ℚ => (q : ℝ)
  else vec.map fun q : ℚ => (q : ℝ) / Real.sqrt ((norm : ℝ))

/-- `MockEmbedder.Embed(text)` on the text's UTF-8 bytes. -/
noncomputable def mockEmbed (bytes : List Nat) : List ℝ := normalize (mockEmbedPre bytes)

/-- Sum of squared components, the square of the L2 norm. -/
def sumSquares (v : List ℝ) : ℝ := (v.map fun x => x * x).sum

/-! ### Chromem vector store — `memory/store/chromem/chromem.go`

`ChromemStore` keeps one collection per owner (the `collections` map is
keyed by the user id; the chromem collection name is `"user_" + id`, or
`"global"` for the empty id).  `Store` serializes the memory and adds a
document to the owner's collection; `Query` queries only the caller's
collection with a `where` filter on the `owner_id` metadata key.

The external chromem-go library is modelled by its documented contract:
`QueryEmbedding(emb, n, where, _)` keeps the documents whose metadata
matches every `where` entry, ranks them by similarity to `emb`
(cosine on the stored embeddings), and returns at most `n`; the
decreasing-limit retry loop of `Query` only shrinks `n` to the
collection size, so its net effect is `take limit`. -/

/-- The `thought/action/observation/success` content of a `TraceMemory`. -/
structure TraceContent where
  thought : String
  action : String
  observation : String
  success : Bool
deriving DecidableEq

/-- The abstract memory record (`memory.Memory` capabilities used by the
store): identity, owner, conversation, type tag, creation time (already
rendered as its RFC3339 string), content, string metadata (non-string
values are stored JSON-marshalled, hence strings here), embedding. -/
structure MemoryRec where
  id : String
  ownerId : String
  conversationId : String
  typeTag : String
  createdAt : String
  content : TraceContent
  customMetadata : List (String × String)
  embedding : List ℚ
deriving DecidableEq

/-- A chromem document as built by `Store`. -/
structure StoredDoc where
  id : String
  content : TraceContent
  embedding : List ℚ
  metadata : List (String × String)
deriving DecidableEq

/-- `serializeMemory`: base metadata entries written first, then the
memory's own metadata inserted over them (a custom `owner_id` entry
would overwrite the base one, exactly as in the source). -/
def serializeMemory (mem : MemoryRec) : StoredDoc :=
  let base := [("type", mem.typeTag), ("owner_id", mem.ownerId),
               ("conversation_id", mem.conversationId), ("created_at", mem.createdAt)]
  let metadata := mem.customMetadata.foldl (fun m kv => mapInsert m kv.1 kv.2) base
  { id := mem.id, content := mem.content, embedding := mem.embedding, metadata := metadata }

/-- `getOrCreateCollection`'s collection name for an owner. -/
def collectionName (userID : String) : String :=
  if userID = "" then "global" else "user_" ++ userID

/-- The store's per-owner collections, keyed by user id as in the
`collections` map. -/
abbrev ChromemDB := String → List StoredDoc

def emptyChromemDB : ChromemDB := fun _ => []

/-- `ChromemStore.Store`: add the serialized document to the owner's
collection. -/
def chromemStore (db : ChromemDB) (mem : MemoryRec) : ChromemDB :=
  fun o => if o = mem.ownerId then db o ++ [serializeMemory mem] else db o

/-- Dot product of embeddings; chromem's cosine similarity on the
(normalised) stored vectors. -/
def dotQ : List ℚ → List ℚ → ℚ
  | [], _ => 0
  | _, [] => 0
  | x :: xs, y :: ys => x * y + dotQ xs ys

/-- Insert into a similarity-descending list. -/
def insertBySim (emb : List ℚ) (d : StoredDoc) : List StoredDoc → List StoredDoc
  | [] => [d]
  | e :: es =>
      if dotQ emb e.embedding ≤ dotQ emb d.embedding then d :: e :: es
      else e :: insertBySim emb d es

/-- Rank documents by similarity to the query embedding, descending. -/
def rankBySim (emb : List ℚ) : List StoredDoc → List StoredDoc
  | [] => []
  | d :: ds => insertBySim emb d (rankBySim emb ds)

/-- The `where` filter `{"owner_id": userID}` passed to `QueryEmbedding`. -/
def whereMatch (userID : String) (d : StoredDoc) : Bool :=
  mapLookup d.metadata "owner_id" == some userID

/-- `deserializeTraceMemory`: fields read back from the document; a
missing metadata key reads as `""` (the Go zero value). -/
def deserializeTraceMemory (d : StoredDoc) : MemoryRec :=
  { id := d.id,
    ownerId := (mapLookup d.metadata "owner_id").getD "",
    conversationId := (mapLookup d.metadata "conversation_id").getD "",
    typeTag := "trace",
    createdAt := (mapLookup d.metadata "created_at").getD "",
    content := d.content,
    customMetadata :=
      d.metadata.filter fun kv =>
        kv.1 ≠ "type" ∧ kv.1 ≠ "owner_id" ∧ kv.1 ≠ "conversation_id" ∧ kv.1 ≠ "created_at",
    embedding := d.embedding }

/-- `deserializeMemory`: only the `"trace"` type deserializes; anything
else is skipped by `Query` (an unknown type returns an error there). -/
def deserializeMemory (d : StoredDoc) : Option MemoryRec :=
  if mapLookup d.metadata "type" = some "trace" then some (deserializeTraceMemory d) else none

/-- `ChromemStore.Query`: the owner's collection, filtered by the
`where` clause, ranked by similarity, cut to the limit, deserialized
(failures skipped). -/
def chromemQuery (db : ChromemDB) (userID : String) (emb : List ℚ) (limit : Nat) :
    List MemoryRec :=
  let results := (rankBySim emb ((db userID).filter (whereMatch userID))).take limit
  results.filterMap deserializeMemory

/-! ### Memory manager — `memory/manager.go`

`SimpleManager.formatMemories` renders each retrieved memory through the
memory's own `Format` with a per-record budget, numbered under a fixed
header; `Retrieve` returns the empty enrichment when memory is disabled
or nothing was retrieved.  A retrieved memory is used only through its
`Format` method here, so it is modelled as that capability. -/

/-- `memory.FormatContext`. -/
structure FormatContext where
  UserID : String
  Query : String
  MaxLength : Nat

/-- A retrieved memory as used by `formatMemories`: its own `Format`. -/
structure MemView where
  format : FormatContext → String

/-- `SimpleManager.formatMemories`. -/
def formatMemories (memories : List MemView) (userID query : String) : String :=
  if memories.length = 0 then ""
  else
    let headerParts : List String := ["=== RELEVANT PAST ACTIONS ===\n"]
    let maxLengthPerMemory :=
      if 2000 / memories.length < 100 then 100 else 2000 / memories.length
    let parts := headerParts ++ memories.enum.map fun p =>
      toString (p.1 + 1) ++ ". " ++
        p.2.format { UserID := userID, Query := query, MaxLength := maxLengthPerMemory } ++ "\n"
    String.intercalate "\n" parts

/-- `SimpleManager.Retrieve` with the embedding of the user message and
the store query abstracted into the retrieved candidate list (their
error paths return an error, not an enrichment). -/
def simpleRetrieve (enabled : Bool) (retrieved : List MemView)
    (userID userMessage : String) : String :=
  if !enabled then ""
  else if retrieved.length = 0 then ""
  else formatMemories retrieved userID userMessage

/-! ### Scheduled payments — hackathon starter `main.go`

The SQLite-backed `PaymentStore` is modelled as the list of its rows
(insertion order); each store method is an atomic operation on that
list, which matches the per-call `sync.RWMutex` discipline of the
source.  Amount strings and `CAST(amount AS REAL)` are modelled as
exact rationals.  Timestamps are abstract instants (`Nat`). -/

inductive PayStatus
  | pending
  | executing
  | executed
  | failed
  | cancelled
deriving DecidableEq

/-- One `scheduled_payments` row. -/
structure ScheduledPayment where
  id : String
  recipient : String
  amount : ℚ
  currency : String
  note : String
  scheduledAt : Nat
  createdAt : Nat
  status : PayStatus
  error : String
deriving DecidableEq

abbrev PaymentRows := List ScheduledPayment

/-- `PaymentStore.Add`: plain insert. -/
def paymentAdd (rows : PaymentRows) (p : ScheduledPayment) : PaymentRows := rows ++ [p]

/-- Insert into a list ordered by ascending `scheduled_at` (the
`ORDER BY scheduled_at ASC` of the queries). -/
def insertByScheduledAt (p : ScheduledPayment) : PaymentRows → PaymentRows
  | [] => [p]
  | q :: qs =>
      if p.scheduledAt ≤ q.scheduledAt then p :: q :: qs
      else q :: insertByScheduledAt p qs

def sortByScheduledAt : PaymentRows → PaymentRows
  | [] => []
  | p :: ps => insertByScheduledAt p (sortByScheduledAt ps)

/-- `PaymentStore.GetPending`. -/
def getPending (rows : PaymentRows) : PaymentRows :=
  sortByScheduledAt (rows.filter fun p => p.status = .pending)

/-- `PaymentStore.GetDue`: pending rows whose scheduled time has passed. -/
def getDue (rows : PaymentRows) (now : Nat) : PaymentRows :=
  sortByScheduledAt (rows.filter fun p => p.status = .pending ∧ p.scheduledAt ≤ now)

/-- `PaymentStore.GetPendingTotalByCurrency`, read at one currency (a
currency missing from the grouped result reads as the Go map zero 0). -/
def pendingTotalByCurrency (rows : PaymentRows) (currency : String) : ℚ :=
  ((rows.filter fun p => p.status = .pending ∧ p.currency = currency).map
    fun p => p.amount).sum

/-- `PaymentStore.UpdateStatus`: unconditional `UPDATE ... WHERE id = ?`
— no guard on the current status. -/
def updateStatus (rows : PaymentRows) (id : String) (status : PayStatus)
    (errMsg : String) : PaymentRows :=
  rows.map fun r => if r.id = id then { r with status := status, error := errMsg } else r

/-- `PaymentStore.Cancel`: `UPDATE ... SET status='cancelled' WHERE id=?
AND status='pending'`; the second component is whether a row was
affected (`RowsAffected > 0`; otherwise Cancel returns an error). -/
def paymentCancel (rows : PaymentRows) (id : String) : PaymentRows × Bool :=
  (rows.map fun r =>
     if r.id = id ∧ r.status = .pending then { r with status := .cancelled } else r,
   rows.any fun r => r.id = id ∧ r.status = .pending)

/-- A `core.ToolResult` as built by the payment tools (`Data` is not
inspected by any claim and is reduced to the success flag). -/
structure PayToolResult where
  success : Bool
  error : String
deriving DecidableEq

/-- Outcome of `liminalExecutor.Execute(search_users)`: transport error,
unsuccessful response, or a parsed `users` list (a response whose data
does not parse as `{users: [...]}` behaves like a non-empty list). -/
inductive SearchOutcome
  | searchErr (msg : String)
  | searchFail
  | searchUsers (users : List String)

/-- Outcome of `liminalExecutor.Execute(get_balance)`: transport error,
unsuccessful response, or the balance `parseBalanceFromResponse`
extracts for the requested currency (the JSON-shape probing of that
helper is abstracted into the extracted value). -/
inductive BalanceOutcome
  | balanceErr (msg : String)
  | balanceFail
  | balanceOk (amount : ℚ)

/-- Outcome of `liminalExecutor.ExecuteWrite(send_money)`. -/
inductive WriteOutcome
  | writeErr (msg : String)
  | writeFail (errMsg : String)
  | writeOk

/-- The external Liminal executor's responses for one handler run. -/
structure ExecutorEnv where
  search : SearchOutcome
  balance : BalanceOutcome
  sendWrite : WriteOutcome

/-- Parsed input of `schedule_payment` / `send_money`: `amount` is the
result of `strconv.ParseFloat` (`none` = parse error), `scheduledAt` of
`time.Parse` on a RFC3339 string. -/
structure ScheduleInput where
  recipient : String
  amount : Option ℚ
  currency : String
  scheduledAt : Option Nat
  note : String

/-- Rendering of Go's `%.2f` on an amount.  The digit string itself is
relied on by no claim — only the leading phrase of the error messages —
so the value is rendered via its amount in hundredths. -/
def fmt2f (q : ℚ) : String := toString (q * 100).floor ++ "e-2"

def failRes (msg : String) : PayToolResult := { success := false, error := msg }

/-- `createSchedulePaymentTool`'s handler.  `now` is the single
`time.Now()` instant of the run and `newId` the fresh `uuid`.  Returns
the tool result together with the store rows after the call. -/
def schedulePaymentHandler (env : ExecutorEnv) (rows : PaymentRows)
    (inp : ScheduleInput) (now : Nat) (newId : String) : PayToolResult × PaymentRows :=
  match inp.amount with
  | none => (failRes "amount must be a positive number", rows)
  | some a =>
    if a ≤ 0 then (failRes "amount must be a positive number", rows)
    else match inp.scheduledAt with
    | none => (failRes "invalid date format, expected ISO 8601", rows)
    | some t =>
      if t < now then (failRes "scheduled date must be in the future", rows)
      else match env.search with
      | .searchErr m => (failRes ("failed to validate recipient: " ++ m), rows)
      | .searchFail => (failRes ("recipient not found: " ++ inp.recipient), rows)
      | .searchUsers users =>
        if users.isEmpty then (failRes ("recipient not found: " ++ inp.recipient), rows)
        else match env.balance with
        | .balanceErr m => (failRes ("failed to check balance: " ++ m), rows)
        | .balanceFail => (failRes "failed to retrieve balance", rows)
        | .balanceOk currentBalance =>
          let pendingTotal := pendingTotalByCurrency rows inp.currency
          let available := currentBalance - pendingTotal
          if available < a then
            (failRes ("insufficient available balance: " ++ fmt2f currentBalance ++ " " ++
              inp.currency ++ " (" ++ fmt2f pendingTotal ++ " reserved in scheduled payments)"),
             rows)
          else
            ({ success := true, error := "" },
             paymentAdd rows
               { id := newId, recipient := inp.recipient, amount := a,
                 currency := inp.currency, note := inp.note, scheduledAt := t,
                 createdAt := now, status := .pending, error := "" })

/-- `createSendMoneyWrapper`'s handler.  The second component records
whether the underlying Liminal `send_money` (`ExecuteWrite`) was
invoked; the store rows are only read, never written, by this tool. -/
def sendMoneyHandler (env : ExecutorEnv) (rows : PaymentRows) (inp : ScheduleInput) :
    PayToolResult × Bool :=
  match inp.amount with
  | none => (failRes "amount must be a positive number", false)
  | some a =>
    if a ≤ 0 then (failRes "amount must be a positive number", false)
    else match env.balance with
    | .balanceErr m => (failRes ("failed to check balance: " ++ m), false)
    | .balanceFail => (failRes "failed to retrieve balance", false)
    | .balanceOk currentBalance =>
      let pendingTotal := pendingTotalByCurrency rows inp.currency
      let available := currentBalance - pendingTotal
      if available < a then
        (failRes ("insufficient available balance: you have " ++ fmt2f currentBalance ++ " " ++
          inp.currency ++ " but " ++ fmt2f pendingTotal ++
          " is reserved for scheduled payments (available: " ++ fmt2f available ++ " " ++
          inp.currency ++ ")"),
         false)
      else
        match env.sendWrite with
        | .writeErr m => (failRes ("send failed: " ++ m), true)
        | .writeFail e => (failRes e, true)
        | .writeOk => ({ success := true, error := "" }, true)

/-! #### The scheduler and the status transition system

`startScheduler` runs one goroutine: each tick captures `GetDue()` and
then, for each captured payment, marks it `executing` (unguarded
`UpdateStatus`), calls `ExecuteWrite`, and marks it `executed` or
`failed`.  Concurrently, the user-facing tools insert `pending` rows and
cancel by id.  Histories of the system are modelled at the granularity
of individual store operations (each one atomic under the store's
mutex), with the scheduler's position kept in the configuration. -/

/-- A configuration: the store rows, the due payments the scheduler has
captured but not yet processed, and the payment it is executing. -/
structure SchedConfig where
  rows : PaymentRows
  queue : PaymentRows
  current : Option ScheduledPayment

/-- Atomic events of the system.  `scheduleIns` is `schedule_payment`
committing its validated insert (always status `pending`); `cancelOp` is
`cancel_scheduled_payment`'s `Cancel`; `tickStart` is the scheduler
capturing `GetDue()`; `markNext` is the scheduler's
`UpdateStatus(id, "executing")` on the next captured payment;
`finishCurrent` is the final `UpdateStatus` after `ExecuteWrite`. -/
inductive SchedEvent
  | scheduleIns (p : ScheduledPayment)
  | cancelOp (id : String)
  | tickStart (now : Nat)
  | markNext
  | finishCurrent (ok : Bool) (errMsg : String)

/-- One atomic step; `none` when the event is not enabled (the single
scheduler goroutine starts a tick only when idle, marks only the next
captured payment, and finishes only the payment it is executing). -/
def schedStep (c : SchedConfig) : SchedEvent → Option SchedConfig
  | .scheduleIns p =>
      some { c with rows := paymentAdd c.rows { p with status := .pending } }
  | .cancelOp id => some { c with rows := (paymentCancel c.rows id).1 }
  | .tickStart now =>
      match c.queue, c.current with
      | [], none => some { c with queue := getDue c.rows now }
      | _, _ => none
  | .markNext =>
      match c.queue, c.current with
      | p :: rest, none =>
          some { rows := updateStatus c.rows p.id .executing "",
                 queue := rest, current := some p }
      | _, _ => none
  | .finishCurrent ok errMsg =>
      match c.current with
      | some p =>
          some { c with
                 rows := updateStatus c.rows p.id (if ok then .executed else .failed) errMsg,
                 current := none }
      | none => none

/-- Run a history of events from a configuration. -/
def schedRun (c : SchedConfig) : List SchedEvent → Option SchedConfig
  | [] => some c
  | e :: es =>
      match schedStep c e with
      | some c1 => schedRun c1 es
      | none => none

def initialSchedConfig : SchedConfig := { rows := [], queue := [], current := none }

/-- The status of a row by id. -/
def statusOf (rows : PaymentRows) (id : String) : Option PayStatus :=
  (rows.find? fun r => r.id = id).map fun r => r.status

/-! ### Agent loop engine — `engine/engine.go`

`Engine.Run` is the loop: admission (guardrails), memory enrichment,
then per turn a model call and per-block processing of the response;
`Engine.RunConfirmedAction` resumes a confirmed write.  The Anthropic
client is an external collaborator and is modelled as the (arbitrary)
response it returns at each model call; tool handlers are modelled as
the function from the tool input to their outcome.  A `uuid.New()`
value is never inspected by any claim, so fresh ids are derived
deterministically from the enclosing block id.

The per-block processing is instrumented: every call of a tool's
`Execute` from the `Run` loop appends an `ExecEvent` recording the
invoked tool's name and its `RequiresConfirmation()` flag, so "the
handler is never invoked" is a statement about the produced events. -/

/-- `core.ToolResult` as seen by the engine (`Data` already
JSON-marshalled into a string, which is how the engine forwards it). -/
structure ToolResultG where
  success : Bool
  error : String
  data : String
deriving DecidableEq

/-- Outcome of `tool.Execute`: a Go `(result, err)` pair with `err ≠
nil`, or a non-nil result.  (A `(nil, nil)` return would crash `Run` on
`result.Data`; handlers in this code base never produce it.) -/
inductive ExecOutcome
  | execError (msg : String)
  | execResult (r : ToolResultG)

/-- A registered tool: name, confirmation flag, handler (abstracting the
handler together with the external world it talks to, as a function of
the raw input), summary rendering, and the optional
`FormatObservation` override probed by `formatObservation`. -/
structure ToolG where
  name : String
  requiresConfirmation : Bool
  execute : String → ExecOutcome
  getSummary : String → String
  formatObs : Option (ExecOutcome → String)

/-- `ToolRegistry.Get` (the registry is immutable during a run). -/
abbrev Registry := String → Option ToolG

/-- A decoded tool-use input: `invalid` when `json.Unmarshal` into the
thought probe fails, otherwise the `thought` field (`""` when absent)
plus the raw input forwarded to the handler. -/
inductive ToolInput
  | invalid (msg : String)
  | valid (thought : String) (raw : String)
deriving DecidableEq

/-- A content block of a model response. -/
inductive RespBlock
  | text (s : String)
  | toolUse (id : String) (name : String) (input : ToolInput)
deriving DecidableEq

/-- An `anthropic.NewToolResultBlock(blockId, content, isError)`. -/
structure ToolResultBlock where
  toolUseId : String
  content : String
  isError : Bool
deriving DecidableEq

/-- A `core.Trace` (the `ID` is a uuid inspected by nothing and
omitted). -/
structure TraceG where
  turnNumber : Nat
  thought : String
  action : String
  actionInput : String
  observation : String
  success : Bool
  metadata : List (String × String)
deriving DecidableEq

/-- A `core.PendingAction` (timestamps and session id omitted; the
expiry arithmetic is not touched by any claim). -/
structure PendingActionG where
  id : String
  idempotencyKey : String
  userId : String
  tool : String
  input : String
  thought : String
  summary : String
  blockId : String
deriving DecidableEq

/-- Modelled from the spec: `GenerateIdempotencyKey` (its definition is
not among the provided sources) is a stable digest of
`(owner_id, tool, input)` — equal triples give equal keys.  The digest
is modelled as the tagged concatenation of the three fields. -/
def GenerateIdempotencyKey (userId tool input : String) : String :=
  "digest(" ++ userId ++ "|" ++ tool ++ "|" ++ input ++ ")"

/-- The record of one `tool.Execute` call made by the `Run` loop. -/
structure ExecEvent where
  tool : String
  requiresConf : Bool
deriving DecidableEq

/-- Whitespace as recognised by `strings.TrimSpace` (the ASCII cases,
which are the only ones the engine's inputs contain). -/
def isSpaceChar (c : Char) : Bool := c = ' ' ∨ c = '\t' ∨ c = '\n' ∨ c = '\r'

def dropSpaces : List Char → List Char
  | [] => []
  | c :: cs => if isSpaceChar c then dropSpaces cs else c :: cs

/-- `strings.TrimSpace`. -/
def strTrim (s : String) : String :=
  ⟨(dropSpaces ((dropSpaces s.data).reverse)).reverse⟩

/-- `strings.Contains(strings.ToLower(s), sub)` for the categorizer. -/
def strContainsLower (s sub : String) : Bool :=
  decide (sub.toList <:+: s.toLower.toList)

/-- `categorizeError`. -/
def categorizeError (errMsg : String) : String :=
  if errMsg = "" then "unknown"
  else if strContainsLower errMsg "insufficient" || strContainsLower errMsg "not enough" then
    "insufficient_balance"
  else if strContainsLower errMsg "not found" || strContainsLower errMsg "does not exist" then
    "not_found"
  else if strContainsLower errMsg "invalid" || strContainsLower errMsg "malformed" then
    "invalid_input"
  else if strContainsLower errMsg "unauthorized" || strContainsLower errMsg "forbidden" then
    "permission_denied"
  else if strContainsLower errMsg "timeout" || strContainsLower errMsg "deadline" then
    "timeout"
  else if strContainsLower errMsg "rate limit" || strContainsLower errMsg "too many" then
    "rate_limit"
  else if strContainsLower errMsg "network" || strContainsLower errMsg "connection" then
    "network_error"
  else "unknown"

/-- `generatePrevention`. -/
def generatePrevention (action errorType : String) : String :=
  let key := action ++ ":" ++ errorType
  if key = "send_money:insufficient_balance" then
    "Check balance with get_balance before attempting transfer"
  else if key = "send_money:not_found" then
    "Verify recipient exists with search_users before transfer"
  else if key = "send_money:invalid_input" then
    "Validate amount is positive and recipient ID format is correct"
  else if key = "deposit_savings:insufficient_balance" then
    "Check wallet balance before depositing to savings"
  else if key = "withdraw_savings:insufficient_balance" then
    "Check savings balance with get_savings_balance before withdrawal"
  else if errorType = "insufficient_balance" then "Check balance before attempting operation"
  else if errorType = "not_found" then "Verify the entity exists before referencing it"
  else if errorType = "invalid_input" then "Validate input parameters before submission"
  else if errorType = "rate_limit" then "Implement retry with backoff"
  else if errorType = "timeout" then "Retry operation with timeout handling"
  else "Review error message and adjust approach accordingly"

/-- `formatObservation`: the tool's own formatter when it implements the
optional interface, else the default fallback.  The success case's
message/status probing of a structured `Data` is collapsed into the
marshalled data string the engine carries. -/
def formatObservation (tool : ToolG) (outcome : ExecOutcome) : String :=
  match tool.formatObs with
  | some f => f outcome
  | none =>
      match outcome with
      | .execError m => "Error: " ++ m
      | .execResult r => if !r.success then "Failed: " ++ r.error else r.data

/-- The error message synthesized for a confirmation-required tool whose
`thought` is missing or empty. -/
def missingThoughtMessage : String :=
  "Error: Missing or empty \"thought\" field. Write operations require explicit reasoning.\n" ++
  "Please explain:\n" ++
  "1. What you've verified (e.g., \"Balance is $500, sufficient for $100 transfer\")\n" ++
  "2. Why you're taking this action (e.g., \"User requested transfer to Alice\")\n" ++
  "3. What you expect to happen (e.g., \"This will complete the payment\")"

/-- The sentinel observation of a trace awaiting confirmation. -/
def awaitingObservation : String := "Awaiting user confirmation"

/-- The observation of the `can_confirm=false` branch. -/
def blockedObservation : String := "Operation blocked: confirmation not allowed in this context"

/-- The failure metadata attached when a trace does not succeed: the
`error`, its `categorizeError` class, and the `generatePrevention`
hint, inserted in source order. -/
def failureMetadata (metadata : List (String × String)) (action errMsg : String) :
    List (String × String) :=
  let m1 := mapInsert metadata "error" errMsg
  let errorType := categorizeError errMsg
  let m2 := mapInsert m1 "error_type" errorType
  mapInsert m2 "prevention" (generatePrevention action errorType)

/-- OBSERVE phase shared by the `Run` exec path and
`RunConfirmedAction`: completes a THINK-phase trace from the execution
outcome. -/
def completeTrace (tool : ToolG) (trace : TraceG) (outcome : ExecOutcome) : TraceG :=
  let success := match outcome with
    | .execError _ => false
    | .execResult r => r.success
  let observation := formatObservation tool outcome
  let metadata :=
    if success then trace.metadata
    else match outcome with
      | .execError m => failureMetadata trace.metadata trace.action m
      | .execResult r => failureMetadata trace.metadata trace.action r.error
  { trace with success := success, observation := observation, metadata := metadata }

/-- The tool_result block built for Claude from an execution outcome. -/
def toolResultOf (blockId : String) (outcome : ExecOutcome) : ToolResultBlock :=
  match outcome with
  | .execError m => { toolUseId := blockId, content := m, isError := true }
  | .execResult r =>
      if !r.success then { toolUseId := blockId, content := r.error, isError := true }
      else { toolUseId := blockId, content := r.data, isError := false }

/-- The mutable state of one response-processing pass of `Run`. -/
structure LoopState where
  toolResults : List ToolResultBlock
  textResponse : String
  traces : List TraceG
  events : List ExecEvent
  pending : Option PendingActionG

def LoopState.initial : LoopState :=
  { toolResults := [], textResponse := "", traces := [], events := [], pending := none }

/-- Processing of one content block of the model response (the body of
the `for _, block := range resp.Content` switch).  `turn` is the
session's turn count, `userId` the session owner. -/
def processBlock (reg : Registry) (canConfirm : Bool) (userId : String) (turn : Nat)
    (st : LoopState) (b : RespBlock) : LoopState :=
  match b with
  | .text s => { st with textResponse := st.textResponse ++ s }
  | .toolUse blockId toolName input =>
    match input with
    | .invalid m =>
        { st with toolResults := st.toolResults ++
            [{ toolUseId := blockId, content := "invalid tool input JSON: " ++ m,
               isError := true }] }
    | .valid rawThought raw =>
      let thought := strTrim rawThought
      match reg toolName with
      | none =>
          { st with toolResults := st.toolResults ++
              [{ toolUseId := blockId, content := "unknown tool: " ++ toolName,
                 isError := true }] }
      | some tool =>
        if tool.requiresConfirmation ∧ thought = "" then
          { st with toolResults := st.toolResults ++
              [{ toolUseId := blockId, content := missingThoughtMessage, isError := true }] }
        else
          let trace : TraceG :=
            { turnNumber := turn, thought := thought, action := toolName,
              actionInput := raw, observation := "", success := false, metadata := [] }
          if tool.requiresConfirmation then
            if !canConfirm then
              let blockedTrace : TraceG :=
                { trace with
                  success := false, observation := blockedObservation,
                  metadata := mapInsert trace.metadata "error" "confirmation_disabled" }
              { st with
                traces := st.traces ++ [blockedTrace],
                toolResults := st.toolResults ++
                  [{ toolUseId := blockId,
                     content := "error: this operation requires user confirmation",
                     isError := true }] }
            else
              let pa : PendingActionG :=
                { id := "uuid:" ++ blockId,
                  idempotencyKey := GenerateIdempotencyKey userId toolName raw,
                  userId := userId, tool := toolName, input := raw, thought := thought,
                  summary := tool.getSummary raw, blockId := blockId }
              let pendingTrace : TraceG :=
                { trace with
                  success := false, observation := awaitingObservation,
                  metadata := mapInsert
                    (mapInsert trace.metadata "confirmation_id" pa.id)
                    "status" "pending_confirmation" }
              { st with
                pending := some pa,
                traces := st.traces ++ [pendingTrace] }
          else
            let outcome := tool.execute raw
            { st with
              traces := st.traces ++ [completeTrace tool trace outcome],
              events := st.events ++
                [{ tool := toolName, requiresConf := tool.requiresConfirmation }],
              toolResults := st.toolResults ++ [toolResultOf blockId outcome] }

/-- The response loop from an intermediate state: blocks in model order,
skipping the rest once a block set `confirmationNeeded` (the `break` out
of the loop). -/
def processBlocksAux (reg : Registry) (canConfirm : Bool) (userId : String) (turn : Nat)
    (st : LoopState) (blocks : List RespBlock) : LoopState :=
  blocks.foldl
    (fun st b => if st.pending.isSome then st else processBlock reg canConfirm userId turn st b)
    st

/-- The whole per-response pass of one turn of `Run`. -/
def processBlocks (reg : Registry) (canConfirm : Bool) (userId : String) (turn : Nat)
    (blocks : List RespBlock) : LoopState :=
  processBlocksAux reg canConfirm userId turn LoopState.initial blocks

/-- A model response: upstream failure, or content blocks (token usage
is not touched by any claim). -/
inductive ModelResp
  | apiError (msg : String)
  | reply (blocks : List RespBlock)

/-- Guardrails outcome of `guardrails.Check`. -/
inductive GuardOutcome
  | checkErr (msg : String)
  | denied (warning : String)
  | allowedOk

/-- The external collaborators of one `Run`: the model's response to the
i-th call, whether the ambient context is cancelled at the top of the
i-th iteration, the optional guardrails, and the optional memory
retrieval result (`Except.error` = retrieval failed, non-fatal). -/
structure EngineEnv where
  model : Nat → ModelResp
  cancelledAt : Nat → Bool
  guard : Option GuardOutcome
  memoryRetrieve : Option (Except String String)

/-- `engine.Output`, reduced to the fields claims inspect. -/
inductive OutputG
  | complete (text : String)
  | confirmationNeeded (pa : PendingActionG)
  | errorOut (msg : String)
deriving DecidableEq

/-- The result of a whole run: the output, every trace appended to the
session, and every `Execute` call the loop made (the instrumentation). -/
structure RunResult where
  output : OutputG
  traces : List TraceG
  events : List ExecEvent

/-- The `for {}` loop of `Run`.  `fuel` is `maxTurns - turn`; the loop
checks cancellation, then the turn limit, then calls the model and
processes the response; it recurses only when tool results were
produced and no confirmation is pending. -/
def runLoop (reg : Registry) (env : EngineEnv) (canConfirm : Bool) (userId : String)
    (maxTurns : Nat) : Nat → Nat → List TraceG → List ExecEvent → RunResult
  | 0, turn, traces, events =>
    if env.cancelledAt turn then
      { output := .errorOut "timed out: context cancelled", traces := traces, events := events }
    else
      { output := .errorOut ("exceeded maximum turns (" ++ toString maxTurns ++ ")"),
        traces := traces, events := events }
  | fuel + 1, turn, traces, events =>
    if env.cancelledAt turn then
      { output := .errorOut "timed out: context cancelled", traces := traces, events := events }
    else
      match env.model turn with
      | .apiError m =>
          { output := .errorOut ("claude API error: " ++ m),
            traces := traces, events := events }
      | .reply blocks =>
        let st := processBlocks reg canConfirm userId (turn + 1) blocks
        let traces1 := traces ++ st.traces
        let events1 := events ++ st.events
        match st.pending with
        | some pa => { output := .confirmationNeeded pa, traces := traces1, events := events1 }
        | none =>
          if st.toolResults.isEmpty then
            { output := .complete st.textResponse, traces := traces1, events := events1 }
          else runLoop reg env canConfirm userId maxTurns fuel (turn + 1) traces1 events1

/-- `core.ExecutionLimits` (timeout is folded into `cancelledAt`). -/
structure LimitsG where
  maxTurns : Nat
  canConfirm : Bool

/-- `Engine.Run`: guardrails admission, memory enrichment (failures
swallowed — the enrichment only extends the system prompt and is
otherwise inert), defaults for missing limits, then the loop. -/
def EngineRun (reg : Registry) (env : EngineEnv) (userId : String)
    (limits : Option LimitsG) : RunResult :=
  match env.guard with
  | some (.checkErr m) =>
      { output := .errorOut ("guardrails check failed: " ++ m), traces := [], events := [] }
  | some (.denied w) =>
      { output := .errorOut ("request blocked by guardrails: " ++ w),
        traces := [], events := [] }
  | _ =>
    let _enrichment : String :=
      match env.memoryRetrieve with
      | some (.ok e) => e
      | some (.error _) => ""
      | none => ""
    let maxTurns := match limits with
      | some l => l.maxTurns
      | none => 20
    let canConfirm := match limits with
      | some l => l.canConfirm
      | none => true
    runLoop reg env canConfirm userId maxTurns maxTurns 0 [] []

/-- `Engine.RunConfirmedAction`: look up the tool (a miss returns a Go
error, no trace), execute the confirmed action through the write path,
append the completed trace stamped `confirmed=true`, then make one
closing model call.  Returns the Go-level result together with the
traces appended to the session (the trace is appended before the final
model call, so it survives an API error). -/
def RunConfirmedAction (reg : Registry) (env : EngineEnv) (action : PendingActionG) :
    Except String OutputG × List TraceG :=
  match reg action.tool with
  | none => (.error ("unknown tool: " ++ action.tool), [])
  | some tool =>
    let trace0 : TraceG :=
      { turnNumber := 0, thought := action.thought, action := action.tool,
        actionInput := action.input, observation := "", success := false,
        metadata := mapInsert (mapInsert [] "confirmed" "true") "confirmation_id" action.id }
    let outcome := tool.execute action.input
    let trace := completeTrace tool trace0 outcome
    match env.model 0 with
    | .apiError m => (.error ("claude api error after confirmation: " ++ m), [trace])
    | .reply blocks =>
      let text := blocks.foldl
        (fun acc b => match b with
          | .text s => acc ++ s
          | _ => acc) ""
      (.ok (.complete text), [trace])

/-! ### Derived predicates and concrete instances used by the theorems -/

/-- A tool-use block that reaches the confirmation branch of the loop:
it decodes, the tool is registered and requires confirmation, and the
trimmed thought is non-empty. -/
def isConfirmBlock (reg : Registry) : RespBlock → Bool
  | .toolUse _ name (.valid th _) =>
      match reg name with
      | some tool => tool.requiresConfirmation && !(strTrim th == "")
      | none => false
  | _ => false

/-- The (amended) per-trace confirmation discipline: a trace whose
action resolves to a confirmation-required tool is either the
awaiting-confirmation trace or the blocked-confirmation trace, always
unsuccessful. -/
def ConfirmTraceOK (reg : Registry) (t : TraceG) : Prop :=
  ∀ tool : ToolG, reg t.action = some tool → tool.requiresConfirmation = true →
    (t.observation = awaitingObservation ∧ t.success = false) ∨
    (t.observation = blockedObservation ∧ t.success = false)

/-- A confirmation-required tool, concrete instance. -/
def toolSendMoney : ToolG :=
  { name := "send_money", requiresConfirmation := true,
    execute := fun _ => .execResult { success := true, error := "", data := "{}" },
    getSummary := fun _ => "Send money", formatObs := none }

/-- A registry holding only `send_money`. -/
def regEx : Registry := fun name => if name = "send_money" then some toolSendMoney else none

/-- A model that asks for `send_money` on the first call and closes with
text on any later call; no guardrails, no memory, never cancelled. -/
def envEx : EngineEnv :=
  { model := fun i =>
      if i = 0 then .reply [.toolUse "b1" "send_money" (.valid "user asked to send" "{}")]
      else .reply [.text "done"],
    cancelledAt := fun _ => false, guard := none, memoryRetrieve := none }

/-- An environment whose model call fails. -/
def envErr : EngineEnv :=
  { model := fun _ => .apiError "boom",
    cancelledAt := fun _ => false, guard := none, memoryRetrieve := none }

/-- The trace `Run` appends for `envEx` when confirmation is allowed. -/
def exPendingTrace : TraceG :=
  { turnNumber := 1, thought := "user asked to send", action := "send_money",
    actionInput := "{}", observation := awaitingObservation, success := false,
    metadata := [("confirmation_id", "uuid:b1"), ("status", "pending_confirmation")] }

/-- The trace `Run` appends for `envEx` when `can_confirm=false`. -/
def exBlockedTrace : TraceG :=
  { turnNumber := 1, thought := "user asked to send", action := "send_money",
    actionInput := "{}", observation := blockedObservation, success := false,
    metadata := [("error", "confirmation_disabled")] }

/-- A due, pending scheduled payment. -/
def examplePayment : ScheduledPayment :=
  { id := "p1", recipient := "@alice", amount := 5, currency := "USDC", note := "",
    scheduledAt := 0, createdAt := 0, status := .pending, error := "" }

/-- A stored trace memory owned by `alice`. -/
def exMem : MemoryRec :=
  { id := "m1", ownerId := "alice", conversationId := "", typeTag := "trace",
    createdAt := "", content := { thought := "t", action := "a", observation := "o",
                                  success := true },
    customMetadata := [], embedding := [1] }

/-! ## Theorems -/

/-! ### Association-map and list lemmas -/

theorem mapInsert_idem {α : Type} (m : List (String × α)) (k : String) (v : α) :
    mapInsert (mapInsert m k v) k v = mapInsert m k v := by
  induction m with
  | nil => simp [mapInsert]
  | cons kv rest ih =>
    obtain ⟨k0, v0⟩ := kv
    by_cases h : k0 = k
    · subst h
      simp [mapInsert]
    · simp [mapInsert, h, ih]

theorem mapLookup_mapInsert_self {α : Type} (m : List (String × α)) (k : String) (v : α) :
    mapLookup (mapInsert m k v) k = some v := by
  induction m with
  | nil => simp [mapInsert, mapLookup]
  | cons kv rest ih =>
    obtain ⟨k0, v0⟩ := kv
    by_cases h : k0 = k
    · subst h
      simp [mapInsert, mapLookup]
    · simp [mapInsert, mapLookup, h, ih]

theorem mapLookup_mapInsert_ne {α : Type} (m : List (String × α)) {k k' : String} (v : α)
    (h : k' ≠ k) : mapLookup (mapInsert m k' v) k = mapLookup m k := by
  induction m with
  | nil => simp [mapInsert, mapLookup, h]
  | cons kv rest ih =>
    obtain ⟨k0, v0⟩ := kv
    by_cases h0 : k0 = k'
    · subst h0
      simp [mapInsert, mapLookup, h]
    · by_cases h1 : k0 = k
      · subst h1
        simp [mapInsert, mapLookup, h0]
      · simp [mapInsert, mapLookup, h0, h1, ih]

theorem list_set_getD_self {α : Type} (l : List α) (i : Nat) (d : α) :
    l.set i (l.getD i d) = l := by
  induction l generalizing i with
  | nil => simp
  | cons a rest ih =>
    cases i with
    | zero => simp
    | succ n => simpa using ih n

theorem list_getD_set_self_lt {α : Type} (l : List α) (i : Nat) (a d : α)
    (h : i < l.length) : (l.set i a).getD i d = a := by
  induction l generalizing i with
  | nil => simp at h
  | cons b rest ih =>
    cases i with
    | zero => simp
    | succ n =>
      simp only [List.length_cons, Nat.succ_lt_succ_iff] at h
      simpa using ih n h

theorem list_set_oob {α : Type} (l : List α) (i : Nat) (a : α) (h : l.length ≤ i) :
    l.set i a = l := by
  induction l generalizing i with
  | nil => simp
  | cons b rest ih =>
    cases i with
    | zero => simp at h
    | succ n =>
      simp only [List.length_cons, Nat.succ_le_succ_iff] at h
      simpa using ih n h

theorem list_getD_oob {α : Type} (l : List α) (i : Nat) (d : α) (h : l.length ≤ i) :
    l.getD i d = d := by
  induction l generalizing i with
  | nil => simp
  | cons b rest ih =>
    cases i with
    | zero => simp at h
    | succ n =>
      simp only [List.length_cons, Nat.succ_le_succ_iff] at h
      simpa using ih n h

theorem list_getD_append_length {α : Type} (l : List α) (x d : α) :
    (l ++ [x]).getD l.length d = x := by
  induction l with
  | nil => simp
  | cons b rest _ => simp

theorem list_set_set {α : Type} (l : List α) (i : Nat) (a b : α) :
    (l.set i a).set i b = l.set i b := by
  induction l generalizing i with
  | nil => simp
  | cons c rest ih =>
    cases i with
    | zero => simp
    | succ n => simp [ih n]

/-! ### C7 — `WithThought` applied twice (schema builder idempotence) -/

/-- Heap stability of a second `WithThought` on the result of a first:
re-inserting the identical `thought` property into the shared map
leaves the heap unchanged, and the properties reference is reused. -/
theorem withThought_second_stable (h : SchemaHeap) (s : Schema) (r1 r2 : Bool) :
    (WithThought (WithThought h s r1).1 (WithThought h s r1).2 r2).1
      = (WithThought h s r1).1
    ∧ (WithThought (WithThought h s r1).1 (WithThought h s r1).2 r2).2.propsRef
      = (WithThought h s r1).2.propsRef
    ∧ (WithThought (WithThought h s r1).1 (WithThought h s r1).2 r2).2.typ
      = (WithThought h s r1).2.typ := by
  cases hpr : s.propsRef with
  | some r =>
    refine ⟨?_, by simp [WithThought, hpr], by simp [WithThought, hpr]⟩
    by_cases hlt : r < h.length
    · have hget : heapGet (heapSet h r (mapInsert (heapGet h r) "thought"
          (StringProperty thoughtDescription))) r
          = mapInsert (heapGet h r) "thought" (StringProperty thoughtDescription) :=
        list_getD_set_self_lt h r _ [] hlt
      simp only [WithThought, hpr]
      rw [hget, mapInsert_idem]
      exact list_set_set h r _ _
    · have hle : h.length ≤ r := Nat.le_of_not_lt hlt
      have h1 : heapSet h r (mapInsert (heapGet h r) "thought"
          (StringProperty thoughtDescription))
          = h := list_set_oob h r _ hle
      simp only [WithThought, hpr]
      rw [h1]
      exact list_set_oob h r _ hle
  | none =>
    refine ⟨?_, by simp [WithThought, hpr, heapAlloc],
      by simp [WithThought, hpr, heapAlloc]⟩
    simp only [WithThought, hpr, heapAlloc]
    have hg : heapGet (h ++ [mapInsert [] "thought" (StringProperty thoughtDescription)])
        h.length = mapInsert [] "thought" (StringProperty thoughtDescription) :=
      list_getD_append_length h _ []
    rw [hg, mapInsert_idem]
    have hs := list_set_getD_self
      (h ++ [mapInsert [] "thought" (StringProperty thoughtDescription)]) h.length []
    rw [show (h ++ [mapInsert [] "thought" (StringProperty thoughtDescription)]).getD
          h.length [] = mapInsert [] "thought" (StringProperty thoughtDescription)
        from hg] at hs
    exact hs

theorem schema_eq_of_fields (a b : Schema) (ht : a.typ = b.typ)
    (hp : a.propsRef = b.propsRef) (hr : a.required = b.required) : a = b := by
  cases a
  cases b
  simp_all

/-- The `"required"` value produced by one `WithThought` call. -/
theorem withThought_required (h : SchemaHeap) (s : Schema) :
    (WithThought h s false).2.required = s.required
    ∧ (WithThought h s true).2.required = some (s.required.getD [] ++ ["thought"]) := by
  cases hpr : s.propsRef <;> simp [WithThought, hpr, heapAlloc]

/-- C7 (amended). `WithThought(WithThought(s, r), r)`: for `r = false`
the second application returns exactly the first's heap and schema; for
`r = true` the heap, the `"type"` entry and the shared properties map
are likewise unchanged, but the `"required"` list of the double
application ends in two copies of `"thought"` where the single
application has one — the claimed equality of the `"required"` list
fails. -/
theorem withThought_twice_analysis (h : SchemaHeap) (s : Schema) :
    WithThought (WithThought h s false).1 (WithThought h s false).2 false
      = WithThought h s false
    ∧ (WithThought (WithThought h s true).1 (WithThought h s true).2 true).1
        = (WithThought h s true).1
    ∧ (WithThought (WithThought h s true).1 (WithThought h s true).2 true).2.typ
        = (WithThought h s true).2.typ
    ∧ (WithThought (WithThought h s true).1 (WithThought h s true).2 true).2.propsRef
        = (WithThought h s true).2.propsRef
    ∧ (WithThought h s true).2.required = some (s.required.getD [] ++ ["thought"])
    ∧ (WithThought (WithThought h s true).1 (WithThought h s true).2 true).2.required
        = some (s.required.getD [] ++ ["thought", "thought"]) := by
  obtain ⟨hh, hp, ht⟩ := withThought_second_stable h s false false
  obtain ⟨hh', hp', ht'⟩ := withThought_second_stable h s true true
  refine ⟨?_, hh', ht', hp', (withThought_required h s).2, ?_⟩
  · refine Prod.ext hh (schema_eq_of_fields _ _ ht hp ?_)
    rw [(withThought_required _ _).1, (withThought_required _ _).1]
  · rw [(withThought_required _ _).2, (withThought_required h s).2]
    simp

/-- C7 counterexample: on `ObjectSchema({})` with `r = true`, applying
`WithThought` twice does not yield the same schema as applying it once —
the `"required"` list doubles the `"thought"` entry. -/
theorem withThought_twice_not_idempotent :
    (WithThought (WithThought (ObjectSchema [] [] []).1 (ObjectSchema [] [] []).2 true).1
        (WithThought (ObjectSchema [] [] []).1 (ObjectSchema [] [] []).2 true).2 true).2.required
      = some ["thought", "thought"]
    ∧ (WithThought (ObjectSchema [] [] []).1 (ObjectSchema [] [] []).2 true).2.required
      = some ["thought"]
    ∧ (WithThought (WithThought (ObjectSchema [] [] []).1 (ObjectSchema [] [] []).2 true).1
        (WithThought (ObjectSchema [] [] []).1 (ObjectSchema [] [] []).2 true).2 true).2
      ≠ (WithThought (ObjectSchema [] [] []).1 (ObjectSchema [] [] []).2 true).2 := by
  decide

/-! ### C8 — `WithThought` aliases its input's properties map -/

/-- C8 (code bug evidence).  On `s = ObjectSchema({})` the call
`WithThought(s, true)` clones only the top-level map: the nested
properties map stays shared, so after the call the `"thought"` key is
visible through `s`'s own properties reference — `s` is mutated, while
the claim (and §4.1 of the specification, "cloning prior to mutation is
mandatory") requires it unchanged.  `s`'s `"required"` value, observed
through `s` itself, is indeed unmodified. -/
theorem withThought_mutates_shared_properties :
    mapLookup (heapGet (ObjectSchema [] [] []).1 0) "thought" = none
    ∧ (ObjectSchema [] [] []).2.propsRef = some 0
    ∧ mapLookup
        (heapGet (WithThought (ObjectSchema [] [] []).1 (ObjectSchema [] [] []).2 true).1 0)
        "thought" = some (StringProperty thoughtDescription)
    ∧ (ObjectSchema [] [] []).2.required = none := by
  decide

/-! ### C9 — enrichment rendering by `SimpleManager` -/

/-- C9.  A non-empty retrieval renders each memory through its own
`Format` at context `{UserID := owner, Query := user text, MaxLength :=
⌊2000 / count⌋ clamped to ≥ 100}`, numbered from 1 under the fixed
header; with nothing retrieved (or memory disabled) the enrichment is
the empty string, and `Retrieve`'s non-empty result is exactly this
rendering. -/
theorem formatMemories_renders_spec (mems : List MemView) (uid q : String) :
    (mems ≠ [] →
      formatMemories mems uid q =
        String.intercalate "\n"
          ("=== RELEVANT PAST ACTIONS ===\n" ::
            mems.enum.map fun p =>
              toString (p.1 + 1) ++ ". " ++
                p.2.format { UserID := uid, Query := q,
                             MaxLength := max (2000 / mems.length) 100 } ++ "\n"))
    ∧ formatMemories [] uid q = ""
    ∧ simpleRetrieve true [] uid q = ""
    ∧ (∀ ms : List MemView, simpleRetrieve false ms uid q = "")
    ∧ (mems ≠ [] → simpleRetrieve true mems uid q = formatMemories mems uid q) := by
  have hmax : ∀ n : Nat, (if 2000 / n < 100 then 100 else 2000 / n) = max (2000 / n) 100 := by
    intro n
    by_cases h2 : 2000 / n < 100
    · rw [if_pos h2, Nat.max_eq_right (Nat.le_of_lt h2)]
    · rw [if_neg h2, Nat.max_eq_left (Nat.le_of_not_lt h2)]
  refine ⟨?_, rfl, rfl, fun ms => rfl, ?_⟩
  · intro hne
    have hlen : mems.length ≠ 0 := by simpa [List.length_eq_zero] using hne
    simp only [formatMemories, if_neg hlen, hmax, List.singleton_append]
  · intro hne
    have hlen : mems.length ≠ 0 := by simpa [List.length_eq_zero] using hne
    simp [simpleRetrieve, hlen]

theorem formatMemories_renders_spec_witness :
    formatMemories [{ format := fun _ => "M" }] "u" "q" =
      String.intercalate "\n"
        ("=== RELEVANT PAST ACTIONS ===\n" ::
          ([{ format := fun _ => "M" }] : List MemView).enum.map fun p =>
            toString (p.1 + 1) ++ ". " ++
              p.2.format { UserID := "u", Query := "q",
                           MaxLength := max
                             (2000 / ([{ format := fun _ => "M" }] : List MemView).length)
                             100 } ++ "\n") :=
  (formatMemories_renders_spec [{ format := fun _ => "M" }] "u" "q").1 (by simp)

/-! ### C3 — owner partitioning of the chromem store -/

theorem mem_insertBySim {emb : List ℚ} {d e : StoredDoc} {l : List StoredDoc} :
    e ∈ insertBySim emb d l ↔ e = d ∨ e ∈ l := by
  induction l with
  | nil => simp [insertBySim]
  | cons x xs ih =>
    by_cases h : dotQ emb x.embedding ≤ dotQ emb d.embedding
    · simp [insertBySim, h]
    · simp [insertBySim, h, ih]
      tauto

theorem mem_rankBySim {emb : List ℚ} {e : StoredDoc} {l : List StoredDoc} :
    e ∈ rankBySim emb l ↔ e ∈ l := by
  induction l with
  | nil => simp [rankBySim]
  | cons x xs ih => simp [rankBySim, mem_insertBySim, ih]

/-- C3.  A query against owner `O` yields only records whose `owner_id`
is `O`: the engine queries only `O`'s collection with a `where` filter
on the `owner_id` metadata, and the deserialized owner comes from that
same metadata entry.  The empty owner id maps to the separate `global`
collection, every other owner to its own `user_<id>` collection, and a
`Store` never writes outside its owner's collection. -/
theorem chromemQuery_owner_isolation :
    (∀ (mems : List MemoryRec) (userID : String) (emb : List ℚ) (limit : Nat)
        (m : MemoryRec),
        m ∈ chromemQuery (mems.foldl chromemStore emptyChromemDB) userID emb limit →
        m.ownerId = userID)
    ∧ collectionName "" = "global"
    ∧ (∀ uid : String, uid ≠ "" → collectionName uid = "user_" ++ uid)
    ∧ (∀ (db : ChromemDB) (mem : MemoryRec) (o : String),
        o ≠ mem.ownerId → chromemStore db mem o = db o) := by
  refine ⟨?_, rfl, ?_, ?_⟩
  · intro mems userID emb limit m hm
    unfold chromemQuery at hm
    obtain ⟨d, hd, hdm⟩ := List.mem_filterMap.1 hm
    have hd1 : d ∈ rankBySim emb
        (((mems.foldl chromemStore emptyChromemDB) userID).filter (whereMatch userID)) :=
      List.mem_of_mem_take hd
    have hd2 := (List.mem_filter.1 (mem_rankBySim.1 hd1)).2
    have howner : mapLookup d.metadata "owner_id" = some userID := by
      simpa [whereMatch] using hd2
    unfold deserializeMemory at hdm
    by_cases htype : mapLookup d.metadata "type" = some "trace"
    · rw [if_pos htype] at hdm
      obtain rfl : deserializeTraceMemory d = m := Option.some.inj hdm
      simp [deserializeTraceMemory, howner]
    · rw [if_neg htype] at hdm
      exact absurd hdm (by simp)
  · intro uid h
    simp [collectionName, h]
  · intro db mem o h
    simp [chromemStore, h]

theorem chromemQuery_owner_isolation_witness :
    (deserializeTraceMemory (serializeMemory exMem)).ownerId = "alice" :=
  chromemQuery_owner_isolation.1 [exMem] "alice" [1] 5
    (deserializeTraceMemory (serializeMemory exMem)) (by decide)

/-! ### C5 — the reserved-balance guard -/

/-- C5.  With the earlier validations passed (positive parsed amount, a
future date and a located recipient for `schedule_payment`, a
successful balance fetch for both tools), each handler computes
`available = live balance − pending total of the currency` and rejects
with a failed result whose error opens with `insufficient available
balance` — persisting no row, delegating no send — exactly when
`available < amount`; otherwise `schedule_payment` persists one new
`pending` row and the `send_money` wrapper delegates to the underlying
Liminal `send_money`. -/
theorem balance_guard_rejects_iff_insufficient
    (env : ExecutorEnv) (rows : PaymentRows) (inp : ScheduleInput) (now t : Nat)
    (newId : String) (a bal : ℚ) (users : List String)
    (hamt : inp.amount = some a) (hpos : 0 < a)
    (hbal : env.balance = .balanceOk bal)
    (hsearch : env.search = .searchUsers users) (husers : users ≠ [])
    (hsched : inp.scheduledAt = some t) (hfuture : now ≤ t) :
    ((bal - pendingTotalByCurrency rows inp.currency < a ↔
       ((schedulePaymentHandler env rows inp now newId).1.success = false
         ∧ (∃ rest, (schedulePaymentHandler env rows inp now newId).1.error
             = "insufficient available balance" ++ rest)
         ∧ (schedulePaymentHandler env rows inp now newId).2 = rows))
     ∧ (¬ bal - pendingTotalByCurrency rows inp.currency < a →
         (schedulePaymentHandler env rows inp now newId).1.success = true
         ∧ (schedulePaymentHandler env rows inp now newId).2
             = rows ++ [{ id := newId, recipient := inp.recipient, amount := a,
                          currency := inp.currency, note := inp.note, scheduledAt := t,
                          createdAt := now, status := .pending, error := "" }])
     ∧ (bal - pendingTotalByCurrency rows inp.currency < a ↔
         ((sendMoneyHandler env rows inp).1.success = false
           ∧ (∃ rest, (sendMoneyHandler env rows inp).1.error
               = "insufficient available balance" ++ rest)
           ∧ (sendMoneyHandler env rows inp).2 = false))
     ∧ (¬ bal - pendingTotalByCurrency rows inp.currency < a →
         (sendMoneyHandler env rows inp).2 = true)) := by
  have hnpos : ¬ a ≤ 0 := not_le.mpr hpos
  have hnpast : ¬ t < now := Nat.not_lt.mpr hfuture
  have hempty : users.isEmpty = false := by
    cases users with
    | nil => exact absurd rfl husers
    | cons x xs => rfl
  have hlit : "insufficient available balance" ++ ": " = "insufficient available balance: " := by
    decide
  have hlit2 : "insufficient available balance" ++ ": you have "
      = "insufficient available balance: you have " := by
    decide
  have hsplit : ∀ x : String,
      ("insufficient available balance: " ++ x)
        = "insufficient available balance" ++ (": " ++ x) := by
    intro x
    rw [← String.append_assoc, hlit]
  have hsplit2 : ∀ x : String,
      ("insufficient available balance: you have " ++ x)
        = "insufficient available balance" ++ (": you have " ++ x) := by
    intro x
    rw [← String.append_assoc, hlit2]
  by_cases hlt : bal - pendingTotalByCurrency rows inp.currency < a
  · have hres : schedulePaymentHandler env rows inp now newId
        = (failRes ("insufficient available balance: " ++ fmt2f bal ++ " " ++ inp.currency ++
            " (" ++ fmt2f (pendingTotalByCurrency rows inp.currency) ++
            " reserved in scheduled payments)"), rows) := by
      simp [schedulePaymentHandler, hamt, hsched, hbal, hsearch, hnpos, hnpast, hempty, hlt]
    have hres2 : sendMoneyHandler env rows inp
        = (failRes ("insufficient available balance: you have " ++ fmt2f bal ++ " " ++
            inp.currency ++ " but " ++ fmt2f (pendingTotalByCurrency rows inp.currency) ++
            " is reserved for scheduled payments (available: " ++
            fmt2f (bal - pendingTotalByCurrency rows inp.currency) ++ " " ++
            inp.currency ++ ")"), false) := by
      simp [sendMoneyHandler, hamt, hbal, hnpos, hlt]
    refine ⟨?_, fun hc => absurd hlt hc, ?_, fun hc => absurd hlt hc⟩
    · rw [hres]
      refine iff_of_true hlt ⟨rfl, ⟨": " ++ (fmt2f bal ++ (" " ++ (inp.currency ++
        (" (" ++ (fmt2f (pendingTotalByCurrency rows inp.currency) ++
          " reserved in scheduled payments)"))))), ?_⟩, rfl⟩
      simp only [failRes, String.append_assoc]
      rw [hsplit]
    · rw [hres2]
      refine iff_of_true hlt ⟨rfl, ⟨": you have " ++ (fmt2f bal ++ (" " ++ (inp.currency ++
        (" but " ++ (fmt2f (pendingTotalByCurrency rows inp.currency) ++
          (" is reserved for scheduled payments (available: " ++
            (fmt2f (bal - pendingTotalByCurrency rows inp.currency) ++
              (" " ++ (inp.currency ++ ")"))))))))), ?_⟩, rfl⟩
      simp only [failRes, String.append_assoc]
      rw [hsplit2]
  · have hres : schedulePaymentHandler env rows inp now newId
        = ({ success := true, error := "" },
           rows ++ [{ id := newId, recipient := inp.recipient, amount := a,
                      currency := inp.currency, note := inp.note, scheduledAt := t,
                      createdAt := now, status := .pending, error := "" }]) := by
      simp [schedulePaymentHandler, hamt, hsched, hbal, hsearch, hnpos, hnpast, hempty, hlt,
        paymentAdd]
    refine ⟨?_, fun _ => ?_, ?_, fun _ => ?_⟩
    · rw [hres]
      exact iff_of_false hlt (by simp)
    · rw [hres]
      exact ⟨rfl, rfl⟩
    · refine iff_of_false hlt ?_
      rintro ⟨-, -, hdel⟩
      revert hdel
      cases hw : env.sendWrite <;>
        simp [sendMoneyHandler, hamt, hbal, hnpos, hlt, hw]
    · cases hw : env.sendWrite <;>
        simp [sendMoneyHandler, hamt, hbal, hnpos, hlt, hw]

theorem balance_guard_rejects_iff_insufficient_witness :
    (schedulePaymentHandler
        { search := .searchUsers ["alice"], balance := .balanceOk 10, sendWrite := .writeOk }
        [examplePayment]
        { recipient := "@alice", amount := some 7, currency := "USDC",
          scheduledAt := some 5, note := "" } 0 "p2").2 = [examplePayment]
    ∧ (sendMoneyHandler
        { search := .searchUsers ["alice"], balance := .balanceOk 10, sendWrite := .writeOk }
        [examplePayment]
        { recipient := "@alice", amount := some 7, currency := "USDC",
          scheduledAt := some 5, note := "" }).2 = false := by
  have H := balance_guard_rejects_iff_insufficient
    { search := .searchUsers ["alice"], balance := .balanceOk 10, sendWrite := .writeOk }
    [examplePayment]
    { recipient := "@alice", amount := some 7, currency := "USDC",
      scheduledAt := some 5, note := "" }
    0 5 "p2" 7 10 ["alice"] rfl (by norm_num) rfl rfl (by simp) rfl (by norm_num)
  have hpt : pendingTotalByCurrency [examplePayment] "USDC" = 5 := by
    simp [pendingTotalByCurrency, examplePayment, List.filter]
  have hlt : (10 : ℚ) - pendingTotalByCurrency [examplePayment] "USDC" < 7 := by
    rw [hpt]
    norm_num
  exact ⟨(H.1.mp hlt).2.2, (H.2.2.1.mp hlt).2.2⟩

/-! ### C6 — scheduled payment status transitions -/

/-- C6 (code bug evidence).  The scheduler's `UpdateStatus(id,
"executing")` carries no status guard, and the due list is captured
before the per-payment processing, so a `cancel_scheduled_payment`
committed between `GetDue` and the mark revives the row: the history
`schedule; tick; cancel; mark; finish` — every step an operation the
program issues, with the cancel racing the scheduler exactly as the
source permits — moves the row `pending → cancelled → executing →
executed`, although cancellation is supposed to be terminal. -/
theorem scheduler_revives_cancelled_payment :
    ((schedRun initialSchedConfig
        [.scheduleIns examplePayment, .tickStart 1, .cancelOp "p1"]).map
      fun c => statusOf c.rows "p1") = some (some .cancelled)
    ∧ ((schedRun initialSchedConfig
        [.scheduleIns examplePayment, .tickStart 1, .cancelOp "p1", .markNext]).map
      fun c => statusOf c.rows "p1") = some (some .executing)
    ∧ ((schedRun initialSchedConfig
        [.scheduleIns examplePayment, .tickStart 1, .cancelOp "p1", .markNext,
         .finishCurrent true ""]).map
      fun c => statusOf c.rows "p1") = some (some .executed) := by
  decide

/-! ### C10 — the mock embedder -/

theorem lcgSeeds_length (n seed : Nat) : (lcgSeeds n seed).length = n := by
  induction n generalizing seed with
  | zero => rfl
  | succ k ih => simp [lcgSeeds, ih]

theorem mockEmbedPre_length (bytes : List Nat) :
    (mockEmbedPre bytes).length = mockDimensions := by
  simp [mockEmbedPre, lcgSeeds_length]

theorem rat_cast_list_sum (l : List ℚ) :
    ((l.sum : ℚ) : ℝ) = (l.map fun q : ℚ => (q : ℝ)).sum := by
  induction l with
  | nil => simp
  | cons x xs ih => simp [ih]

theorem embedValue_ne_zero {seed : Nat} (h : int64OfUInt64 seed ≠ 0) :
    embedValue seed ≠ 0 := by
  unfold embedValue
  exact div_ne_zero (by exact_mod_cast h) (by norm_num)

/-- C10.  `Embed` is a pure function of the text's bytes (equal texts
give equal embeddings), always returns `dimensions = 384` components,
and whenever the pre-normalization vector is non-zero the result is an
exact unit vector: the sum of its squared components is 1. -/
theorem mockEmbed_deterministic_unit_norm (bytes : List Nat)
    (h : mockEmbedPre bytes ≠ List.replicate mockDimensions 0) :
    (mockEmbed bytes).length = mockDimensions
    ∧ sumSquares (mockEmbed bytes) = 1
    ∧ ∀ bytes2 : List Nat, bytes2 = bytes → mockEmbed bytes2 = mockEmbed bytes := by
  set v := mockEmbedPre bytes with hv
  have hex : ∃ x ∈ v, x ≠ 0 := by
    by_contra hall
    push_neg at hall
    exact h (List.eq_replicate_iff.mpr ⟨mockEmbedPre_length bytes, fun b hb => hall b hb⟩)
  obtain ⟨x, hxv, hx0⟩ := hex
  have hnn : ∀ y ∈ v.map fun q => q * q, (0 : ℚ) ≤ y := by
    intro y hy
    obtain ⟨q, -, rfl⟩ := List.mem_map.1 hy
    exact mul_self_nonneg q
  have hSpos : (0 : ℚ) < (v.map fun q => q * q).sum :=
    lt_of_lt_of_le (mul_self_pos.2 hx0)
      (List.single_le_sum hnn _ (List.mem_map_of_mem _ hxv))
  have hS0 : ((v.map fun q => q * q).sum : ℚ) ≠ 0 := ne_of_gt hSpos
  have hnormeq : normalize v = v.map fun q : ℚ =>
      (q : ℝ) / Real.sqrt (((v.map fun q => q * q).sum : ℚ) : ℝ) := by
    unfold normalize
    rw [if_neg hS0]
  have hSRpos : (0 : ℝ) < (((v.map fun q => q * q).sum : ℚ) : ℝ) := by
    exact_mod_cast hSpos
  have hsqrt : Real.sqrt (((v.map fun q => q * q).sum : ℚ) : ℝ) *
      Real.sqrt (((v.map fun q => q * q).sum : ℚ) : ℝ)
      = (((v.map fun q => q * q).sum : ℚ) : ℝ) := Real.mul_self_sqrt hSRpos.le
  refine ⟨?_, ?_, fun b2 hb2 => by rw [hb2]⟩
  · rw [mockEmbed, ← hv, hnormeq]
    simpa using mockEmbedPre_length bytes
  · rw [mockEmbed, ← hv, hnormeq]
    unfold sumSquares
    rw [List.map_map]
    have hfun : ((fun x : ℝ => x * x) ∘ fun q : ℚ =>
        (q : ℝ) / Real.sqrt (((v.map fun q => q * q).sum : ℚ) : ℝ))
        = fun q : ℚ => ((q * q : ℚ) : ℝ) *
            (Real.sqrt (((v.map fun q => q * q).sum : ℚ) : ℝ) *
             Real.sqrt (((v.map fun q => q * q).sum : ℚ) : ℝ))⁻¹ := by
      funext q
      simp only [Function.comp_apply, div_mul_div_comm, div_eq_mul_inv, Rat.cast_mul]
      ring
    rw [hfun, hsqrt, List.sum_map_mul_right]
    have hcast : (v.map fun q : ℚ => ((q * q : ℚ) : ℝ)).sum
        = (((v.map fun q => q * q).sum : ℚ) : ℝ) := by
      rw [rat_cast_list_sum, List.map_map]
      rfl
    rw [hcast]
    exact mul_inv_cancel₀ (ne_of_gt hSRpos)

theorem mockEmbed_deterministic_unit_norm_witness :
    (mockEmbed [110, 105, 109]).length = mockDimensions
    ∧ sumSquares (mockEmbed [110, 105, 109]) = 1
    ∧ ∀ bytes2 : List Nat, bytes2 = [110, 105, 109] →
        mockEmbed bytes2 = mockEmbed [110, 105, 109] :=
  mockEmbed_deterministic_unit_norm [110, 105, 109] (by
    intro heq
    have hhead : (mockEmbedPre [110, 105, 109]).headD 1
        = embedValue (lcgNext (fnv1a [110, 105, 109])) := rfl
    rw [heq] at hhead
    have h0 : (List.replicate mockDimensions (0 : ℚ)).headD 1 = 0 := by decide
    rw [h0] at hhead
    exact embedValue_ne_zero (by decide) hhead.symm)

/-! ### Engine lemmas -/

theorem processBlocksAux_cons (reg : Registry) (cc : Bool) (uid : String) (turn : Nat)
    (st : LoopState) (b : RespBlock) (bs : List RespBlock) :
    processBlocksAux reg cc uid turn st (b :: bs)
      = processBlocksAux reg cc uid turn
          (if st.pending.isSome then st else processBlock reg cc uid turn st b) bs := rfl

theorem processBlocksAux_of_isSome (reg : Registry) (cc : Bool) (uid : String) (turn : Nat)
    (blocks : List RespBlock) : ∀ st : LoopState, st.pending.isSome →
    processBlocksAux reg cc uid turn st blocks = st := by
  induction blocks with
  | nil => intro st _; rfl
  | cons b bs ih =>
    intro st h
    rw [processBlocksAux_cons, if_pos h]
    exact ih st h

theorem processBlocksAux_append (reg : Registry) (cc : Bool) (uid : String) (turn : Nat)
    (st : LoopState) (blocks more : List RespBlock) :
    processBlocksAux reg cc uid turn st (blocks ++ more)
      = processBlocksAux reg cc uid turn (processBlocksAux reg cc uid turn st blocks) more := by
  unfold processBlocksAux
  exact List.foldl_append _ _ _ _

theorem processBlock_toolResults_mono {tr : ToolResultBlock} (reg : Registry) (cc : Bool)
    (uid : String) (turn : Nat) (st : LoopState) (b : RespBlock)
    (h : tr ∈ st.toolResults) : tr ∈ (processBlock reg cc uid turn st b).toolResults := by
  cases b with
  | text s => simpa [processBlock] using h
  | toolUse id name input =>
    cases input with
    | invalid m => simp [processBlock, h]
    | valid th raw =>
      cases hreg : reg name with
      | none =>
        simp only [processBlock, hreg]
        simp [h]
      | some tool =>
        simp only [processBlock, hreg]
        split
        · simp [h]
        · split
          · split
            · simp [h]
            · simp [h]
          · simp [h]

theorem processBlocksAux_toolResults_mono {tr : ToolResultBlock} (reg : Registry) (cc : Bool)
    (uid : String) (turn : Nat) (blocks : List RespBlock) : ∀ st : LoopState,
    tr ∈ st.toolResults → tr ∈ (processBlocksAux reg cc uid turn st blocks).toolResults := by
  induction blocks with
  | nil => intro st h; exact h
  | cons b bs ih =>
    intro st h
    rw [processBlocksAux_cons]
    by_cases hp : st.pending.isSome
    · rw [if_pos hp]
      exact ih st h
    · rw [if_neg hp]
      exact ih _ (processBlock_toolResults_mono reg cc uid turn st b h)

theorem processBlock_pending_not_canConfirm (reg : Registry) (uid : String) (turn : Nat)
    (st : LoopState) (b : RespBlock) :
    (processBlock reg false uid turn st b).pending = st.pending := by
  cases b with
  | text s => rfl
  | toolUse id name input =>
    cases input with
    | invalid m => rfl
    | valid th raw =>
      cases hreg : reg name with
      | none =>
        simp [processBlock, hreg]
      | some tool =>
        simp only [processBlock, hreg]
        split
        · rfl
        · split
          · simp
          · rfl

theorem processBlocksAux_pending_not_canConfirm (reg : Registry) (uid : String) (turn : Nat)
    (blocks : List RespBlock) : ∀ st : LoopState,
    (processBlocksAux reg false uid turn st blocks).pending = st.pending := by
  induction blocks with
  | nil => intro st; rfl
  | cons b bs ih =>
    intro st
    rw [processBlocksAux_cons]
    by_cases hp : st.pending.isSome
    · rw [if_pos hp]
      exact ih st
    · rw [if_neg hp, ih _]
      exact processBlock_pending_not_canConfirm reg uid turn st b

theorem processBlock_confirm_block_blocked (reg : Registry) (uid : String) (turn : Nat)
    (st : LoopState) (id name : String) (inp : ToolInput)
    (hcb : isConfirmBlock reg (.toolUse id name inp) = true) :
    (⟨id, "error: this operation requires user confirmation", true⟩ : ToolResultBlock)
      ∈ (processBlock reg false uid turn st (.toolUse id name inp)).toolResults := by
  cases inp with
  | invalid m => simp [isConfirmBlock] at hcb
  | valid th raw =>
    simp only [isConfirmBlock] at hcb
    cases hreg : reg name with
    | none => rw [hreg] at hcb; simp at hcb
    | some tool =>
      rw [hreg] at hcb
      simp only [Bool.and_eq_true, Bool.not_eq_true', beq_eq_false_iff_ne] at hcb
      obtain ⟨hconf, hth⟩ := hcb
      simp only [processBlock, hreg]
      rw [if_neg (by simp [hconf, hth])]
      simp [hconf]

theorem processBlock_events_conf_false (reg : Registry) (cc : Bool) (uid : String)
    (turn : Nat) (st : LoopState) (b : RespBlock)
    (h : ∀ ev ∈ st.events, ev.requiresConf = false) :
    ∀ ev ∈ (processBlock reg cc uid turn st b).events, ev.requiresConf = false := by
  cases b with
  | text s => simpa [processBlock] using h
  | toolUse id name input =>
    cases input with
    | invalid m => simpa [processBlock] using h
    | valid th raw =>
      cases hreg : reg name with
      | none =>
        simp only [processBlock, hreg]
        simpa using h
      | some tool =>
        simp only [processBlock, hreg]
        split
        · simpa using h
        · split
          · split
            · simpa using h
            · simpa using h
          · rename_i hnc
            intro ev hev
            simp only [List.mem_append, List.mem_singleton] at hev
            rcases hev with hev | hev
            · exact h ev hev
            · rw [hev]
              simpa using hnc

theorem processBlocksAux_events_conf_false (reg : Registry) (cc : Bool) (uid : String)
    (turn : Nat) (blocks : List RespBlock) : ∀ st : LoopState,
    (∀ ev ∈ st.events, ev.requiresConf = false) →
    ∀ ev ∈ (processBlocksAux reg cc uid turn st blocks).events, ev.requiresConf = false := by
  induction blocks with
  | nil => intro st h; exact h
  | cons b bs ih =>
    intro st h
    rw [processBlocksAux_cons]
    by_cases hp : st.pending.isSome
    · rw [if_pos hp]
      exact ih st h
    · rw [if_neg hp]
      exact ih _ (processBlock_events_conf_false reg cc uid turn st b h)

theorem processBlock_confirm_sets_pending (reg : Registry) (uid : String) (turn : Nat)
    (st : LoopState) (b : RespBlock) (hcb : isConfirmBlock reg b = true) :
    (processBlock reg true uid turn st b).pending.isSome := by
  cases b with
  | text s => simp [isConfirmBlock] at hcb
  | toolUse id name inp =>
    cases inp with
    | invalid m => simp [isConfirmBlock] at hcb
    | valid th raw =>
      simp only [isConfirmBlock] at hcb
      cases hreg : reg name with
      | none => rw [hreg] at hcb; simp at hcb
      | some tool =>
        rw [hreg] at hcb
        simp only [Bool.and_eq_true, Bool.not_eq_true', beq_eq_false_iff_ne] at hcb
        obtain ⟨hconf, hth⟩ := hcb
        simp only [processBlock, hreg]
        rw [if_neg (by simp [hconf, hth])]
        simp [hconf]

theorem processBlocksAux_pending_isSome_mono (reg : Registry) (cc : Bool) (uid : String)
    (turn : Nat) (blocks : List RespBlock) (st : LoopState) (h : st.pending.isSome) :
    (processBlocksAux reg cc uid turn st blocks).pending.isSome := by
  rw [processBlocksAux_of_isSome reg cc uid turn blocks st h]
  exact h

theorem completeTrace_action (tool : ToolG) (trace : TraceG) (outcome : ExecOutcome) :
    (completeTrace tool trace outcome).action = trace.action := rfl

theorem processBlock_traces_inv (reg : Registry) (cc : Bool) (uid : String) (turn : Nat)
    (st : LoopState) (b : RespBlock) (hst : ∀ t ∈ st.traces, ConfirmTraceOK reg t) :
    ∀ t ∈ (processBlock reg cc uid turn st b).traces, ConfirmTraceOK reg t := by
  cases b with
  | text s => simpa [processBlock] using hst
  | toolUse id name input =>
    cases input with
    | invalid m => simpa [processBlock] using hst
    | valid th raw =>
      cases hreg : reg name with
      | none =>
        simp only [processBlock, hreg]
        simpa using hst
      | some tool =>
        simp only [processBlock, hreg]
        split
        · simpa using hst
        · split
          · split
            · intro t ht
              simp only [List.mem_append, List.mem_singleton] at ht
              rcases ht with ht | ht
              · exact hst t ht
              · intro tool' _ _
                right
                rw [ht]
                exact ⟨rfl, rfl⟩
            · intro t ht
              simp only [List.mem_append, List.mem_singleton] at ht
              rcases ht with ht | ht
              · exact hst t ht
              · intro tool' _ _
                left
                rw [ht]
                exact ⟨rfl, rfl⟩
          · rename_i hnc
            intro t ht
            simp only [List.mem_append, List.mem_singleton] at ht
            rcases ht with ht | ht
            · exact hst t ht
            · intro tool' hreg' hconf'
              rw [ht, completeTrace_action] at hreg'
              simp only at hreg'
              rw [hreg] at hreg'
              obtain rfl : tool = tool' := Option.some.inj hreg'
              exact absurd hconf' (by simpa using hnc)

theorem processBlocksAux_traces_inv (reg : Registry) (cc : Bool) (uid : String)
    (turn : Nat) (blocks : List RespBlock) : ∀ st : LoopState,
    (∀ t ∈ st.traces, ConfirmTraceOK reg t) →
    ∀ t ∈ (processBlocksAux reg cc uid turn st blocks).traces, ConfirmTraceOK reg t := by
  induction blocks with
  | nil => intro st h; exact h
  | cons b bs ih =>
    intro st h
    rw [processBlocksAux_cons]
    by_cases hp : st.pending.isSome
    · rw [if_pos hp]
      exact ih st h
    · rw [if_neg hp]
      exact ih _ (processBlock_traces_inv reg cc uid turn st b h)

theorem processBlocks_traces_inv (reg : Registry) (cc : Bool) (uid : String) (turn : Nat)
    (blocks : List RespBlock) :
    ∀ t ∈ (processBlocks reg cc uid turn blocks).traces, ConfirmTraceOK reg t := by
  unfold processBlocks
  exact processBlocksAux_traces_inv reg cc uid turn blocks LoopState.initial
    (by intro t ht; simp [LoopState.initial] at ht)

theorem processBlocks_events_conf_false (reg : Registry) (cc : Bool) (uid : String)
    (turn : Nat) (blocks : List RespBlock) :
    ∀ ev ∈ (processBlocks reg cc uid turn blocks).events, ev.requiresConf = false := by
  unfold processBlocks
  exact processBlocksAux_events_conf_false reg cc uid turn blocks LoopState.initial
    (by intro ev hev; simp [LoopState.initial] at hev)

theorem runLoop_traces_inv (reg : Registry) (env : EngineEnv) (cc : Bool) (uid : String)
    (maxTurns : Nat) : ∀ (fuel turn : Nat) (traces : List TraceG) (events : List ExecEvent),
    (∀ t ∈ traces, ConfirmTraceOK reg t) →
    ∀ t ∈ (runLoop reg env cc uid maxTurns fuel turn traces events).traces,
      ConfirmTraceOK reg t := by
  intro fuel
  induction fuel with
  | zero =>
    intro turn traces events h
    unfold runLoop
    split
    · simpa using h
    · simpa using h
  | succ fuel ih =>
    intro turn traces events h
    unfold runLoop
    split
    · simpa using h
    · have happ : ∀ t ∈ traces ++ (processBlocks reg cc uid (turn + 1)
          (match env.model turn with | .apiError _ => [] | .reply blocks => blocks)).traces,
          ConfirmTraceOK reg t := by
        intro t ht
        rcases List.mem_append.1 ht with ht | ht
        · exact h t ht
        · exact processBlocks_traces_inv reg cc uid (turn + 1) _ t ht
      cases hm : env.model turn with
      | apiError m => simpa using h
      | reply blocks =>
        simp only
        cases hp : (processBlocks reg cc uid (turn + 1) blocks).pending with
        | some pa =>
          simp only [hp]
          intro t ht
          rcases List.mem_append.1 ht with ht | ht
          · exact h t ht
          · exact processBlocks_traces_inv reg cc uid (turn + 1) blocks t ht
        | none =>
          simp only [hp]
          split
          · intro t ht
            rcases List.mem_append.1 ht with ht | ht
            · exact h t ht
            · exact processBlocks_traces_inv reg cc uid (turn + 1) blocks t ht
          · refine ih (turn + 1) _ _ ?_
            intro t ht
            rcases List.mem_append.1 ht with ht | ht
            · exact h t ht
            · exact processBlocks_traces_inv reg cc uid (turn + 1) blocks t ht

theorem runLoop_events_conf_false (reg : Registry) (env : EngineEnv) (cc : Bool)
    (uid : String) (maxTurns : Nat) :
    ∀ (fuel turn : Nat) (traces : List TraceG) (events : List ExecEvent),
    (∀ ev ∈ events, ev.requiresConf = false) →
    ∀ ev ∈ (runLoop reg env cc uid maxTurns fuel turn traces events).events,
      ev.requiresConf = false := by
  intro fuel
  induction fuel with
  | zero =>
    intro turn traces events h
    unfold runLoop
    split
    · simpa using h
    · simpa using h
  | succ fuel ih =>
    intro turn traces events h
    unfold runLoop
    split
    · simpa using h
    · cases hm : env.model turn with
      | apiError m => simpa using h
      | reply blocks =>
        simp only
        cases hp : (processBlocks reg cc uid (turn + 1) blocks).pending with
        | some pa =>
          simp only [hp]
          intro ev hev
          rcases List.mem_append.1 hev with hev | hev
          · exact h ev hev
          · exact processBlocks_events_conf_false reg cc uid (turn + 1) blocks ev hev
        | none =>
          simp only [hp]
          split
          · intro ev hev
            rcases List.mem_append.1 hev with hev | hev
            · exact h ev hev
            · exact processBlocks_events_conf_false reg cc uid (turn + 1) blocks ev hev
          · refine ih (turn + 1) _ _ ?_
            intro ev hev
            rcases List.mem_append.1 hev with hev | hev
            · exact h ev hev
            · exact processBlocks_events_conf_false reg cc uid (turn + 1) blocks ev hev

theorem runLoop_error_shape (reg : Registry) (env : EngineEnv) (cc : Bool) (uid : String)
    (maxTurns : Nat) : ∀ (fuel turn : Nat) (traces : List TraceG) (events : List ExecEvent)
    (msg : String),
    (runLoop reg env cc uid maxTurns fuel turn traces events).output = .errorOut msg →
    (∃ m, msg = "claude API error: " ++ m)
    ∨ (∃ n : Nat, msg = "exceeded maximum turns (" ++ toString n ++ ")")
    ∨ msg = "timed out: context cancelled" := by
  intro fuel
  induction fuel with
  | zero =>
    intro turn traces events msg h
    unfold runLoop at h
    split at h
    · exact Or.inr (Or.inr (OutputG.errorOut.inj h.symm ▸ rfl))
    · exact Or.inr (Or.inl ⟨maxTurns, (OutputG.errorOut.inj h.symm ▸ rfl)⟩)
  | succ fuel ih =>
    intro turn traces events msg h
    unfold runLoop at h
    split at h
    · exact Or.inr (Or.inr (OutputG.errorOut.inj h.symm ▸ rfl))
    · cases hm : env.model turn with
      | apiError m =>
        rw [hm] at h
        simp only at h
        exact Or.inl ⟨m, (OutputG.errorOut.inj h.symm ▸ rfl)⟩
      | reply blocks =>
        rw [hm] at h
        simp only at h
        cases hp : (processBlocks reg cc uid (turn + 1) blocks).pending with
        | some pa =>
          rw [hp] at h
          simp at h
        | none =>
          rw [hp] at h
          simp only at h
          split at h
          · simp at h
          · exact ih (turn + 1) _ _ msg h

theorem mapLookup_failureMetadata_confirmed (metadata : List (String × String))
    (action errMsg : String) (h : mapLookup metadata "confirmed" = some "true") :
    mapLookup (failureMetadata metadata action errMsg) "confirmed" = some "true" := by
  unfold failureMetadata
  rw [mapLookup_mapInsert_ne _ _ (by decide), mapLookup_mapInsert_ne _ _ (by decide),
    mapLookup_mapInsert_ne _ _ (by decide)]
  exact h

theorem completeTrace_metadata_confirmed (tool : ToolG) (trace : TraceG)
    (outcome : ExecOutcome) (h : mapLookup trace.metadata "confirmed" = some "true") :
    mapLookup (completeTrace tool trace outcome).metadata "confirmed" = some "true" := by
  unfold completeTrace
  cases outcome with
  | execError m =>
    simp only
    exact mapLookup_failureMetadata_confirmed _ _ _ h
  | execResult r =>
    cases hr : r.success with
    | true => simpa [hr] using h
    | false =>
      simp only [hr]
      simp only [Bool.false_eq_true, if_false]
      exact mapLookup_failureMetadata_confirmed _ _ _ h

theorem processBlocksAux_confirm_error_result (reg : Registry) (uid : String) (turn : Nat) :
    ∀ (blocks : List RespBlock) (st : LoopState) (id name : String) (inp : ToolInput),
    st.pending = none →
    RespBlock.toolUse id name inp ∈ blocks →
    isConfirmBlock reg (.toolUse id name inp) = true →
    ∃ tr ∈ (processBlocksAux reg false uid turn st blocks).toolResults,
      tr.toolUseId = id ∧ tr.isError = true := by
  intro blocks
  induction blocks with
  | nil =>
    intro st id name inp hp hmem
    simp at hmem
  | cons b bs ih =>
    intro st id name inp hp hmem hcb
    rw [processBlocksAux_cons]
    have hpn : ¬ st.pending.isSome := by simp [hp]
    rw [if_neg hpn]
    rcases List.mem_cons.1 hmem with hb | hb
    · refine ⟨⟨id, "error: this operation requires user confirmation", true⟩, ?_, rfl, rfl⟩
      apply processBlocksAux_toolResults_mono
      rw [← hb]
      exact processBlock_confirm_block_blocked reg uid turn st id name inp hcb
    · refine ih _ id name inp ?_ hb hcb
      rw [processBlock_pending_not_canConfirm]
      exact hp

theorem processBlocksAux_confirm_pending (reg : Registry) (uid : String) (turn : Nat) :
    ∀ (blocks : List RespBlock) (st : LoopState) (b : RespBlock),
    b ∈ blocks → isConfirmBlock reg b = true →
    (processBlocksAux reg true uid turn st blocks).pending.isSome := by
  intro blocks
  induction blocks with
  | nil =>
    intro st b h
    simp at h
  | cons b0 bs ih =>
    intro st b hmem hcb
    rw [processBlocksAux_cons]
    by_cases hp : st.pending.isSome
    · rw [if_pos hp]
      exact processBlocksAux_pending_isSome_mono _ _ _ _ _ _ hp
    · rw [if_neg hp]
      rcases List.mem_cons.1 hmem with hb | hb
      · exact processBlocksAux_pending_isSome_mono _ _ _ _ _ _
          (processBlock_confirm_sets_pending reg uid turn st b0 (hb ▸ hcb))
      · exact ih _ b hb hcb

/-! ### C1 (amended) — trace discipline for confirmation-required tools -/

/-- C1 (amended).  Every trace `Run` appends whose action resolves to a
confirmation-required tool is unsuccessful and carries either the
observation "Awaiting user confirmation" (confirmation requested) or
the observation "Operation blocked: confirmation not allowed in this
context" (the `can_confirm=false` branch); and every trace appended by
`RunConfirmedAction` carries metadata `confirmed="true"`. -/
theorem run_confirmation_trace_discipline :
    (∀ (reg : Registry) (env : EngineEnv) (userId : String) (limits : Option LimitsG)
        (t : TraceG) (tool : ToolG),
        t ∈ (EngineRun reg env userId limits).traces →
        reg t.action = some tool → tool.requiresConfirmation = true →
        (t.observation = awaitingObservation ∧ t.success = false) ∨
        (t.observation = blockedObservation ∧ t.success = false))
    ∧ (∀ (reg : Registry) (env : EngineEnv) (action : PendingActionG) (t : TraceG),
        t ∈ (RunConfirmedAction reg env action).2 →
        mapLookup t.metadata "confirmed" = some "true") := by
  constructor
  · intro reg env userId limits t tool ht hreg hconf
    unfold EngineRun at ht
    cases hg : env.guard with
    | none =>
      rw [hg] at ht
      simp only at ht
      exact runLoop_traces_inv reg env _ userId _ _ 0 [] [] (by simp) t ht tool hreg hconf
    | some g =>
      cases g with
      | checkErr m =>
        rw [hg] at ht
        simp at ht
      | denied w =>
        rw [hg] at ht
        simp at ht
      | allowedOk =>
        rw [hg] at ht
        simp only at ht
        exact runLoop_traces_inv reg env _ userId _ _ 0 [] [] (by simp) t ht tool hreg hconf
  · intro reg env action t ht
    unfold RunConfirmedAction at ht
    cases hreg : reg action.tool with
    | none =>
      rw [hreg] at ht
      simp at ht
    | some tool =>
      rw [hreg] at ht
      simp only at ht
      have hbase : mapLookup (mapInsert (mapInsert [] "confirmed" "true")
          "confirmation_id" action.id) "confirmed" = some "true" := by
        rw [mapLookup_mapInsert_ne _ _ (by decide)]
        exact mapLookup_mapInsert_self _ _ _
      cases hm : env.model 0 with
      | apiError m =>
        rw [hm] at ht
        simp only [List.mem_singleton] at ht
        rw [ht]
        exact completeTrace_metadata_confirmed _ _ _ hbase
      | reply blocks =>
        rw [hm] at ht
        simp only [List.mem_singleton] at ht
        rw [ht]
        exact completeTrace_metadata_confirmed _ _ _ hbase

theorem run_confirmation_trace_discipline_witness :
    (exPendingTrace.observation = awaitingObservation ∧ exPendingTrace.success = false) ∨
    (exPendingTrace.observation = blockedObservation ∧ exPendingTrace.success = false) :=
  run_confirmation_trace_discipline.1 regEx envEx "u1"
    (some { maxTurns := 5, canConfirm := true }) exPendingTrace toolSendMoney
    (by decide) rfl rfl

/-- C1 counterexample.  With `can_confirm=false`, `Run` appends a trace
for the confirmation-required `send_money` whose observation is the
blocked sentinel: it is neither the "Awaiting user confirmation" trace
nor a `run_confirmed` trace carrying `confirmed="true"`, so the claim's
original disjunction fails on it. -/
theorem run_blocked_trace_violates_claim :
    exBlockedTrace ∈ (EngineRun regEx envEx "u1"
        (some { maxTurns := 5, canConfirm := false })).traces
    ∧ regEx exBlockedTrace.action = some toolSendMoney
    ∧ toolSendMoney.requiresConfirmation = true
    ∧ ¬(exBlockedTrace.observation = awaitingObservation ∧ exBlockedTrace.success = false)
    ∧ mapLookup exBlockedTrace.metadata "confirmed" ≠ some "true"
    ∧ exBlockedTrace.success = false :=
  ⟨by decide, rfl, rfl, by decide, by decide, rfl⟩

/-! ### C2 — confirmation-required tools are never executed by `Run` -/

/-- C2.  The loop never calls a confirmation-required tool's `Execute`:
every `Execute` call recorded during block processing (and over a whole
`Run`) is of a tool with `RequiresConfirmation() = false`; with
`can_confirm=false` no confirmation is ever pending and every
well-formed confirmation block gets an `is_error` tool_result instead;
once a block sets the pending confirmation, the remaining blocks are
not processed; and with `can_confirm=true` a well-formed confirmation
block always leaves the loop with a pending action (the
`ConfirmationNeeded` return). -/
theorem run_never_executes_confirmation_tool :
    (∀ (reg : Registry) (cc : Bool) (uid : String) (turn : Nat) (blocks : List RespBlock)
        (ev : ExecEvent), ev ∈ (processBlocks reg cc uid turn blocks).events →
        ev.requiresConf = false)
    ∧ (∀ (reg : Registry) (env : EngineEnv) (uid : String) (limits : Option LimitsG)
        (ev : ExecEvent), ev ∈ (EngineRun reg env uid limits).events →
        ev.requiresConf = false)
    ∧ (∀ (reg : Registry) (uid : String) (turn : Nat) (blocks : List RespBlock)
        (id name : String) (inp : ToolInput),
        RespBlock.toolUse id name inp ∈ blocks →
        isConfirmBlock reg (.toolUse id name inp) = true →
        (processBlocks reg false uid turn blocks).pending = none ∧
        ∃ tr ∈ (processBlocks reg false uid turn blocks).toolResults,
          tr.toolUseId = id ∧ tr.isError = true)
    ∧ (∀ (reg : Registry) (cc : Bool) (uid : String) (turn : Nat) (st : LoopState)
        (blocks more : List RespBlock),
        (processBlocksAux reg cc uid turn st blocks).pending.isSome →
        processBlocksAux reg cc uid turn st (blocks ++ more)
          = processBlocksAux reg cc uid turn st blocks)
    ∧ (∀ (reg : Registry) (uid : String) (turn : Nat) (blocks : List RespBlock)
        (b : RespBlock), b ∈ blocks → isConfirmBlock reg b = true →
        (processBlocks reg true uid turn blocks).pending.isSome) := by
  refine ⟨?_, ?_, ?_, ?_, ?_⟩
  · intro reg cc uid turn blocks ev hev
    exact processBlocks_events_conf_false reg cc uid turn blocks ev hev
  · intro reg env uid limits ev hev
    unfold EngineRun at hev
    cases hg : env.guard with
    | none =>
      rw [hg] at hev
      simp only at hev
      exact runLoop_events_conf_false reg env _ uid _ _ 0 [] [] (by simp) ev hev
    | some g =>
      cases g with
      | checkErr m =>
        rw [hg] at hev
        simp at hev
      | denied w =>
        rw [hg] at hev
        simp at hev
      | allowedOk =>
        rw [hg] at hev
        simp only at hev
        exact runLoop_events_conf_false reg env _ uid _ _ 0 [] [] (by simp) ev hev
  · intro reg uid turn blocks id name inp hmem hcb
    constructor
    · unfold processBlocks
      rw [processBlocksAux_pending_not_canConfirm]
      rfl
    · exact processBlocksAux_confirm_error_result reg uid turn blocks LoopState.initial
        id name inp rfl hmem hcb
  · intro reg cc uid turn st blocks more hp
    rw [processBlocksAux_append,
      processBlocksAux_of_isSome reg cc uid turn more _ hp]
  · intro reg uid turn blocks b hmem hcb
    exact processBlocksAux_confirm_pending reg uid turn blocks LoopState.initial b hmem hcb

theorem run_never_executes_confirmation_tool_witness :
    (processBlocks regEx false "u1" 1
        [.toolUse "b1" "send_money" (.valid "user asked to send" "{}")]).pending = none
    ∧ ∃ tr ∈ (processBlocks regEx false "u1" 1
        [.toolUse "b1" "send_money" (.valid "user asked to send" "{}")]).toolResults,
        tr.toolUseId = "b1" ∧ tr.isError = true :=
  run_never_executes_confirmation_tool.2.2.1 regEx "u1" 1
    [.toolUse "b1" "send_money" (.valid "user asked to send" "{}")]
    "b1" "send_money" (.valid "user asked to send" "{}") (by simp) (by decide)

/-! ### C4 — error containment in the loop -/

/-- C4.  No error in the processing of one tool-use block aborts the
run: a JSON-decode failure, an unknown tool, a missing thought on a
confirmation-required tool and a failed execution each synthesize an
`is_error` tool_result (leaving the pending state untouched, so the
loop continues), and a whole `Run` returns an error output only for
guardrails admission (check failure or denial), a model-provider
failure, turn-limit exhaustion, or the deadline. -/
theorem run_error_containment :
    (∀ (reg : Registry) (cc : Bool) (uid : String) (turn : Nat) (st : LoopState)
        (id name m : String),
        processBlock reg cc uid turn st (.toolUse id name (.invalid m))
          = { st with toolResults := st.toolResults ++
              [{ toolUseId := id, content := "invalid tool input JSON: " ++ m,
                 isError := true }] })
    ∧ (∀ (reg : Registry) (cc : Bool) (uid : String) (turn : Nat) (st : LoopState)
        (id name th raw : String), reg name = none →
        processBlock reg cc uid turn st (.toolUse id name (.valid th raw))
          = { st with toolResults := st.toolResults ++
              [{ toolUseId := id, content := "unknown tool: " ++ name, isError := true }] })
    ∧ (∀ (reg : Registry) (cc : Bool) (uid : String) (turn : Nat) (st : LoopState)
        (id name th raw : String) (tool : ToolG), reg name = some tool →
        tool.requiresConfirmation = true → strTrim th = "" →
        processBlock reg cc uid turn st (.toolUse id name (.valid th raw))
          = { st with toolResults := st.toolResults ++
              [{ toolUseId := id, content := missingThoughtMessage, isError := true }] })
    ∧ (∀ (reg : Registry) (cc : Bool) (uid : String) (turn : Nat) (st : LoopState)
        (id name th raw : String) (tool : ToolG), reg name = some tool →
        tool.requiresConfirmation = false →
        ((∀ m2, tool.execute raw = .execError m2 →
            (processBlock reg cc uid turn st (.toolUse id name (.valid th raw))).toolResults
              = st.toolResults ++ [{ toolUseId := id, content := m2, isError := true }])
         ∧ (∀ r : ToolResultG, tool.execute raw = .execResult r → r.success = false →
            (processBlock reg cc uid turn st (.toolUse id name (.valid th raw))).toolResults
              = st.toolResults ++ [{ toolUseId := id, content := r.error, isError := true }])
         ∧ (processBlock reg cc uid turn st (.toolUse id name (.valid th raw))).pending
              = st.pending))
    ∧ (∀ (reg : Registry) (env : EngineEnv) (uid : String) (limits : Option LimitsG)
        (msg : String), (EngineRun reg env uid limits).output = .errorOut msg →
        (∃ m, msg = "guardrails check failed: " ++ m)
        ∨ (∃ w, msg = "request blocked by guardrails: " ++ w)
        ∨ (∃ m, msg = "claude API error: " ++ m)
        ∨ (∃ n : Nat, msg = "exceeded maximum turns (" ++ toString n ++ ")")
        ∨ msg = "timed out: context cancelled") := by
  refine ⟨?_, ?_, ?_, ?_, ?_⟩
  · intro reg cc uid turn st id name m
    rfl
  · intro reg cc uid turn st id name th raw h
    simp [processBlock, h]
  · intro reg cc uid turn st id name th raw tool hreg hconf hth
    simp [processBlock, hreg, hconf, hth]
  · intro reg cc uid turn st id name th raw tool hreg hnc
    refine ⟨?_, ?_, ?_⟩
    · intro m2 hm2
      simp [processBlock, hreg, hnc, hm2, toolResultOf]
    · intro r hr hrs
      simp [processBlock, hreg, hnc, hr, toolResultOf, hrs]
    · simp [processBlock, hreg, hnc]
  · intro reg env uid limits msg h
    unfold EngineRun at h
    cases hg : env.guard with
    | none =>
      rw [hg] at h
      simp only at h
      rcases runLoop_error_shape reg env _ uid _ _ 0 [] [] msg h with h1 | h1 | h1
      · exact Or.inr (Or.inr (Or.inl h1))
      · exact Or.inr (Or.inr (Or.inr (Or.inl h1)))
      · exact Or.inr (Or.inr (Or.inr (Or.inr h1)))
    | some g =>
      cases g with
      | checkErr m =>
        rw [hg] at h
        simp only [OutputG.errorOut.injEq] at h
        exact Or.inl ⟨m, h.symm⟩
      | denied w =>
        rw [hg] at h
        simp only [OutputG.errorOut.injEq] at h
        exact Or.inr (Or.inl ⟨w, h.symm⟩)
      | allowedOk =>
        rw [hg] at h
        simp only at h
        rcases runLoop_error_shape reg env _ uid _ _ 0 [] [] msg h with h1 | h1 | h1
        · exact Or.inr (Or.inr (Or.inl h1))
        · exact Or.inr (Or.inr (Or.inr (Or.inl h1)))
        · exact Or.inr (Or.inr (Or.inr (Or.inr h1)))

theorem run_error_containment_witness :
    (∃ m, "claude API error: boom" = "guardrails check failed: " ++ m)
    ∨ (∃ w, "claude API error: boom" = "request blocked by guardrails: " ++ w)
    ∨ (∃ m, "claude API error: boom" = "claude API error: " ++ m)
    ∨ (∃ n : Nat, "claude API error: boom"
        = "exceeded maximum turns (" ++ toString n ++ ")")
    ∨ "claude API error: boom" = "timed out: context cancelled" :=
  run_error_containment.2.2.2.2 regEx envErr "u1" none "claude API error: boom" rfl

end NimSDK
